import Mathlib

/-!
# Verification of `calculate_similarity.py`

Shallow embedding of the similarity scorer of this repository
(`src/calculate_similarity.py`) and of the part of Python's
`difflib.SequenceMatcher` that it calls (`SequenceMatcher(None, a, b).ratio()`,
i.e. `isjunk = None`, `autojunk = True`).

Modelling conventions:
* A Python string is a `List Char` (`PyStr`); a file's content is the list of
  its lines as produced by `readlines()` (each line usually ends in a newline
  character).  Whitespace is modelled by the six ASCII whitespace characters
  recognised by `str.strip()` / `str.split()` / `\s`.
* Python floats are modelled as exact rationals (`ℚ`); `round(x, 4)` is
  modelled as exact round-half-to-even at four decimal digits, and the float
  literals `0.6` / `0.4` as `6/10` / `4/10`.
* The dictionaries `b2j` and `j2len` of `SequenceMatcher` are modelled as a
  function and an association list with distinct keys.
* File I/O is modelled by an `Except` value: reading a file either yields its
  list of lines or one of the error kinds that `open`/`read` can raise.  The
  `try/except FileNotFoundError` of `calculate_similarity` catches exactly the
  `fileNotFound` kind; every other error kind propagates (the function
  "raises", i.e. returns `Except.error`).
-/

namespace CalcSim

/-- A Python string: a list of characters. -/
abbrev PyStr := List Char

/-- The whitespace characters of `str.strip()` / `str.split()` / regex `\s`
(restricted to ASCII). -/
def pyIsSpace (c : Char) : Bool :=
  c = ' ' || c = '\t' || c = '\n' || c = '\r' || c = '\x0b' || c = '\x0c'

/-- Python `s.strip()`: remove leading and trailing whitespace. -/
def pyStrip (s : PyStr) : PyStr :=
  ((s.dropWhile pyIsSpace).reverse.dropWhile pyIsSpace).reverse

/-- `normalize_assembly_line` (src/calculate_similarity.py:31-40):
truncate at the first `#`, then at the first `;`, then strip whitespace. -/
def normalize_assembly_line (line : PyStr) : PyStr :=
  let l1 := if line.contains '#' then line.take (line.indexOf '#') else line
  let l2 := if l1.contains ';' then l1.take (l1.indexOf ';') else l1
  pyStrip l2

/-- First character class of the label regex `[.a-zA-Z_]`. -/
def isIdentStart (c : Char) : Bool :=
  c = '.' || ('a' ≤ c && c ≤ 'z') || ('A' ≤ c && c ≤ 'Z') || c = '_'

/-- Continuation character class of the label regex `[a-zA-Z0-9_.]`. -/
def isIdentChar (c : Char) : Bool :=
  ('a' ≤ c && c ≤ 'z') || ('A' ≤ c && c ≤ 'Z') || ('0' ≤ c && c ≤ '9') ||
    c = '_' || c = '.'

/-- After the first character: consume `[a-zA-Z0-9_.]*`, then require `:`
followed by whitespace only.  Deterministic scan of the anchored regex
`^[.a-zA-Z_][a-zA-Z0-9_.]*:\s*$` (the character classes exclude `:` and
whitespace, so the regex matches iff this scan succeeds). -/
def labelRest : PyStr → Bool
  | [] => false
  | c :: rest => if c = ':' then rest.all pyIsSpace
                 else if isIdentChar c then labelRest rest
                 else false

/-- `re.match(r'^[.a-zA-Z_][a-zA-Z0-9_.]*:\s*$', s)` as a Boolean. -/
def labelMatch : PyStr → Bool
  | [] => false
  | c :: rest => isIdentStart c && labelRest rest

/-- Helper of `splitWs`: accumulate the current word (reversed). -/
def splitWsAux : PyStr → PyStr → List PyStr
  | [], cur => if cur = [] then [] else [cur.reverse]
  | c :: cs, cur =>
    if pyIsSpace c then
      if cur = [] then splitWsAux cs [] else cur.reverse :: splitWsAux cs []
    else splitWsAux cs (c :: cur)

/-- Python `s.split()`: split on runs of whitespace, discarding empty parts. -/
def splitWs (s : PyStr) : List PyStr := splitWsAux s []

/-- Python `s.startswith('.')`. -/
def startsDot : PyStr → Bool
  | [] => false
  | c :: _ => c = '.'

/-- `extract_instructions` (src/calculate_similarity.py:42-59): the first
whitespace-delimited token of each normalized line that is non-empty, not a
label and not a directive. -/
def extract_instructions : List PyStr → List PyStr
  | [] => []
  | l :: ls =>
    let n := normalize_assembly_line l
    let rest := extract_instructions ls
    if n = [] then rest
    else if labelMatch n then rest
    else if startsDot n then rest
    else match splitWs n with
      | [] => rest
      | p :: _ => p :: rest

/-! ## The `difflib.SequenceMatcher` model

Faithful to CPython's `difflib.py` for `SequenceMatcher(None, a, b)`:
`isjunk` is `None`, so `bjunk` is empty and the two junk-extension loops of
`find_longest_match` never run; `autojunk` is on, so when `len(b) >= 200`
every element occurring more than `len(b) // 100 + 1` times is dropped from
`b2j`.  `ratio()` is `2 * M / T` where `M` is the total size of the matching
blocks of the recursive longest-matching-block decomposition and
`T = len(a) + len(b)` (`1.0` when `T = 0`). -/

/-- Number of occurrences of `v` in `b`. -/
def countElem (b : List PyStr) (v : PyStr) : Nat :=
  (b.filter (fun x => x = v)).length

/-- Ascending list of the positions of `v` in `b`. -/
def indicesOf (b : List PyStr) (v : PyStr) : List Nat :=
  (List.range b.length).filter (fun j => b.getD j [] = v)

/-- The `b2j` mapping of `SequenceMatcher.__chain_b`: positions of `v` in
`b`, with popular elements purged when `autojunk` applies. -/
def b2j (b : List PyStr) (v : PyStr) : List Nat :=
  if 200 ≤ b.length ∧ b.length / 100 + 1 < countElem b v then []
  else indicesOf b v

/-- Lookup in an association list with default `0` (Python
`j2len.get(j-1, 0)`; a lookup of `-1`, i.e. `j = 0`, always misses). -/
def lookJ (m : List (Nat × Nat)) (j : Nat) : Nat :=
  match m.lookup j with
  | some k => k
  | none => 0

/-- Inner loop of `find_longest_match` over `b2j[a[i]]` for one row `i`:
skip `j < blo`, stop at the first `j ≥ bhi`, record
`k = j2len.get(j-1, 0) + 1` in the new map and update the best block on a
strict improvement.  Returns the new `j2len` and the best triple
`(besti, bestj, bestsize)`. -/
def innerLoop (i blo bhi : Nat) :
    List Nat → List (Nat × Nat) → List (Nat × Nat) → Nat × Nat × Nat →
    List (Nat × Nat) × (Nat × Nat × Nat)
  | [], _, acc, best => (acc, best)
  | j :: js, old, acc, best =>
    if j < blo then innerLoop i blo bhi js old acc best
    else if bhi ≤ j then (acc, best)
    else
      let k := (if j = 0 then 0 else lookJ old (j - 1)) + 1
      let best' := if best.2.2 < k then (i + 1 - k, j + 1 - k, k) else best
      innerLoop i blo bhi js old ((j, k) :: acc) best'

/-- Outer loop of `find_longest_match` over the rows `i ∈ [alo, ahi)`. -/
def rowLoop (a b : List PyStr) (blo bhi : Nat) :
    List Nat → List (Nat × Nat) → Nat × Nat × Nat → Nat × Nat × Nat
  | [], _, best => best
  | i :: is, j2len, best =>
    let st := innerLoop i blo bhi (b2j b (a.getD i [])) j2len [] best
    rowLoop a b blo bhi is st.1 st.2

/-- Backward extension loop of `find_longest_match` (the junk set is empty,
so the `not isbjunk` test is vacuous and the junk loops never run). -/
def extendBack (a b : List PyStr) (alo blo : Nat) :
    Nat → Nat × Nat × Nat → Nat × Nat × Nat
  | 0, best => best
  | fuel + 1, (besti, bestj, bestsize) =>
    if alo < besti ∧ blo < bestj ∧
        a.getD (besti - 1) [] = b.getD (bestj - 1) [] then
      extendBack a b alo blo fuel (besti - 1, bestj - 1, bestsize + 1)
    else (besti, bestj, bestsize)

/-- Forward extension loop of `find_longest_match`. -/
def extendFwd (a b : List PyStr) (ahi bhi : Nat) :
    Nat → Nat × Nat × Nat → Nat × Nat × Nat
  | 0, best => best
  | fuel + 1, (besti, bestj, bestsize) =>
    if besti + bestsize < ahi ∧ bestj + bestsize < bhi ∧
        a.getD (besti + bestsize) [] = b.getD (bestj + bestsize) [] then
      extendFwd a b ahi bhi fuel (besti, bestj, bestsize + 1)
    else (besti, bestj, bestsize)

/-- `SequenceMatcher.find_longest_match` on the window
`a[alo:ahi] × b[blo:bhi]`. -/
def find_longest_match (a b : List PyStr) (alo ahi blo bhi : Nat) :
    Nat × Nat × Nat :=
  let p1 := rowLoop a b blo bhi (List.range' alo (ahi - alo)) [] (alo, blo, 0)
  let p2 := extendBack a b alo blo p1.1 p1
  extendFwd a b ahi bhi (ahi - (p2.1 + p2.2.2)) p2

/-- Total size of the matching blocks of the recursive decomposition of
`get_matching_blocks` (their order, sorting and adjacent-block merging do not
change the total, which is all `ratio()` uses).  `fuel` bounds the recursion
depth; the callers supply enough. -/
def matchTotal (a b : List PyStr) : Nat → Nat → Nat → Nat → Nat → Nat
  | 0, _, _, _, _ => 0
  | fuel + 1, alo, ahi, blo, bhi =>
    let m := find_longest_match a b alo ahi blo bhi
    if m.2.2 = 0 then 0
    else m.2.2 + matchTotal a b fuel alo m.1 blo m.2.1 +
      matchTotal a b fuel (m.1 + m.2.2) ahi (m.2.1 + m.2.2) bhi

/-- `SequenceMatcher(None, a, b).ratio()`: `2M / T`, and `1.0` when both
sequences are empty (`_calculate_ratio`). -/
def ratio (a b : List PyStr) : ℚ :=
  let T := a.length + b.length
  if T = 0 then 1
  else (2 * (matchTotal a b (T + 1) 0 a.length 0 b.length) : ℚ) / (T : ℚ)

/-! ## The scorer -/

/-- Kernel-reducible floor of a rational (equal to `Int.floor`, see
`ratFloor_eq_floor`). -/
def ratFloor (q : ℚ) : ℤ := q.num / q.den

/-- Round-half-to-even of a rational to an integer (Python `round`). -/
def roundEven (y : ℚ) : ℤ :=
  let f := ratFloor y
  let r := y - (f : ℚ)
  if r < 1 / 2 then f
  else if 1 / 2 < r then f + 1
  else if f % 2 = 0 then f else f + 1

/-- Python `round(x, 4)` on the exact-rational model. -/
def round4 (x : ℚ) : ℚ := (roundEven (x * 10000) : ℚ) / 10000

/-- The three-field result record of `calculate_similarity`. -/
structure SimResult where
  line_similarity : ℚ
  instruction_similarity : ℚ
  overall_similarity : ℚ
deriving DecidableEq, Repr

/-- The zero fallback `{0.0, 0.0, 0.0}`. -/
def zeroResult : SimResult := ⟨0, 0, 0⟩

/-- Error kinds that reading a file may raise.  `fileNotFound` is
`FileNotFoundError`; the others stand for any other `IOError`
(`PermissionError`, `IsADirectoryError`, `UnicodeDecodeError`, ...). -/
inductive ErrKind where
  | fileNotFound
  | permissionDenied
  | otherReadError
deriving DecidableEq, Repr

/-- Outcome of reading one file: its lines, or a raised error. -/
abbrev ReadOutcome := Except ErrKind (List PyStr)

/-- Unrounded line-level ratio (src/calculate_similarity.py:76-81):
normalize every line, drop empty results, compare. -/
def lineRatio (lines1 lines2 : List PyStr) : ℚ :=
  ratio ((lines1.map normalize_assembly_line).filter (fun l => !l.isEmpty))
        ((lines2.map normalize_assembly_line).filter (fun l => !l.isEmpty))

/-- Unrounded instruction-sequence ratio (src/calculate_similarity.py:84-86)
with its explicit both-empty guard (`... if instructions1 or instructions2
else 0.0`). -/
def instRatio (lines1 lines2 : List PyStr) : ℚ :=
  let instructions1 := extract_instructions lines1
  let instructions2 := extract_instructions lines2
  if instructions1 = [] ∧ instructions2 = [] then 0
  else ratio instructions1 instructions2

/-- The similarity computation on two successfully read files
(src/calculate_similarity.py:76-95). -/
def computeSimilarity (lines1 lines2 : List PyStr) : SimResult :=
  let line_similarity := lineRatio lines1 lines2
  let instruction_similarity := instRatio lines1 lines2
  let overall_similarity :=
    line_similarity * (6 / 10) + instruction_similarity * (4 / 10)
  ⟨round4 line_similarity, round4 instruction_similarity,
    round4 overall_similarity⟩

/-- `calculate_similarity` (src/calculate_similarity.py:61-95).  The `try`
block reads file 1 then file 2; `except FileNotFoundError` maps exactly that
error to the zero result, while any other raised error propagates. -/
def calculate_similarity (read1 read2 : ReadOutcome) :
    Except ErrKind SimResult :=
  match read1 with
  | .error .fileNotFound => .ok zeroResult
  | .error e => .error e
  | .ok lines1 =>
    match read2 with
    | .error .fileNotFound => .ok zeroResult
    | .error e => .error e
    | .ok lines2 => .ok (computeSimilarity lines1 lines2)

/-! ## Evaluation helpers for the rounding function

`Rat` arithmetic does not reduce in the kernel, so concrete values of
`round4` are obtained through `Int.floor` characterisations. -/

theorem ratFloor_eq_floor (q : ℚ) : ratFloor q = Int.floor q := by
  rw [Rat.floor_def]; rfl

theorem roundEven_of_lt_half (y : ℚ) (n : ℤ) (h1 : (n : ℚ) ≤ y)
    (h2 : y < (n : ℚ) + 1 / 2) : roundEven y = n := by
  have hf : ratFloor y = n := by
    rw [ratFloor_eq_floor]
    exact Int.floor_eq_iff.mpr ⟨h1, by linarith⟩
  unfold roundEven
  rw [hf, if_pos (by linarith)]

theorem roundEven_of_gt_half (y : ℚ) (n : ℤ) (h1 : (n : ℚ) + 1 / 2 < y)
    (h2 : y < (n : ℚ) + 1) : roundEven y = n + 1 := by
  have hf : ratFloor y = n := by
    rw [ratFloor_eq_floor]
    exact Int.floor_eq_iff.mpr ⟨by linarith, by linarith⟩
  unfold roundEven
  rw [hf, if_neg (by linarith), if_pos (by linarith)]

theorem round4_of_lt_half (x : ℚ) (n : ℤ) (h1 : (n : ℚ) ≤ x * 10000)
    (h2 : x * 10000 < (n : ℚ) + 1 / 2) : round4 x = (n : ℚ) / 10000 := by
  unfold round4
  rw [roundEven_of_lt_half _ n h1 h2]

theorem round4_of_gt_half (x : ℚ) (n : ℤ) (h1 : (n : ℚ) + 1 / 2 < x * 10000)
    (h2 : x * 10000 < (n : ℚ) + 1) : round4 x = ((n : ℚ) + 1) / 10000 := by
  unfold round4
  rw [roundEven_of_gt_half _ n h1 h2]
  push_cast
  ring

theorem round4_one : round4 1 = 1 := by
  rw [round4_of_lt_half 1 10000 (by norm_num) (by norm_num)]
  norm_num

theorem round4_zero : round4 0 = 0 := by
  rw [round4_of_lt_half 0 0 (by norm_num) (by norm_num)]
  norm_num

/-! ## Characterisation of `normalize_assembly_line` -/

/-- Truncation at the first occurrence of `c`: the longest prefix free of
`c`.  `cut_eq_cutAt` shows it agrees with the `index`/slice formulation used
by the Python code. -/
def cutAt (c : Char) (s : PyStr) : PyStr := s.takeWhile (fun d => !(d == c))

theorem cut_eq_cutAt (c : Char) (s : PyStr) :
    (if s.contains c then s.take (s.indexOf c) else s) = cutAt c s := by
  induction s with
  | nil => simp [cutAt]
  | cons x xs ih =>
    by_cases hx : x = c
    · subst hx
      simp [cutAt, List.indexOf_cons]
    · have hbeq : (x == c) = false := beq_false_of_ne hx
      have hbeq' : (c == x) = false := beq_false_of_ne (Ne.symm hx)
      rw [cutAt, List.takeWhile_cons, hbeq]
      simp only [Bool.not_false, if_true]
      rw [List.contains_cons, hbeq', Bool.false_or, List.indexOf_cons, hbeq]
      by_cases hc : xs.contains c = true
      · rw [if_pos hc, cond_false, List.take_succ_cons]
        rw [if_pos hc] at ih
        exact congrArg (x :: ·) ih
      · rw [if_neg hc]
        rw [if_neg hc] at ih
        exact congrArg (x :: ·) ih

/-- `normalize_assembly_line` is: cut at the first `#`, cut at the first
`;`, strip surrounding whitespace. -/
theorem normalize_eq (s : PyStr) :
    normalize_assembly_line s = pyStrip (cutAt ';' (cutAt '#' s)) := by
  simp only [normalize_assembly_line]
  rw [cut_eq_cutAt, cut_eq_cutAt]

theorem cutAt_of_not_mem {c : Char} {s : PyStr} (h : c ∉ s) :
    cutAt c s = s := by
  unfold cutAt
  refine List.takeWhile_eq_self_iff.mpr (fun x hx => ?_)
  simp only [Bool.not_eq_true', beq_eq_false_iff_ne, ne_eq]
  rintro rfl
  exact h hx

theorem cutAt_append_of_not_mem {c : Char} {s : PyStr} (h : c ∉ s)
    (t : PyStr) : cutAt c (s ++ t) = s ++ cutAt c t := by
  unfold cutAt
  rw [List.takeWhile_append_of_pos]
  intro x hx
  simp only [Bool.not_eq_true', beq_eq_false_iff_ne, ne_eq]
  rintro rfl
  exact h hx

theorem cutAt_append_of_mem {c : Char} {s : PyStr} (h : c ∈ s) (t : PyStr) :
    cutAt c (s ++ t) = cutAt c s := by
  unfold cutAt
  rw [List.takeWhile_append, if_neg]
  intro hlen
  have hself : s.takeWhile (fun d => !(d == c)) = s :=
    (List.takeWhile_sublist _).eq_of_length hlen
  have := List.takeWhile_eq_self_iff.mp hself c h
  simp at this

theorem mem_of_cutAt {c : Char} {s : PyStr} {x : Char}
    (h : x ∈ cutAt c s) : x ∈ s ∧ x ≠ c := by
  unfold cutAt at h
  refine ⟨List.takeWhile_subset _ h, fun hxc => ?_⟩
  subst hxc
  have hp := List.mem_takeWhile_imp h
  simp at hp

/-! ## Whitespace and stripping lemmas -/

theorem not_mem_of_ws {w : PyStr} (hw : ∀ x ∈ w, pyIsSpace x) {c : Char}
    (hc : pyIsSpace c = false) : c ∉ w := fun hm => by
  rw [hw c hm] at hc
  simp at hc

theorem pyStrip_ws_left {w : PyStr} (hw : ∀ x ∈ w, pyIsSpace x) (s : PyStr) :
    pyStrip (w ++ s) = pyStrip s := by
  unfold pyStrip
  rw [List.dropWhile_append_of_pos hw]

/-- Either `l.dropWhile p` is empty or its head falsifies `p`. -/
theorem dropWhile_head_not {α : Type} (p : α → Bool) (l : List α) :
    l.dropWhile p = [] ∨
      ∃ x xs, l.dropWhile p = x :: xs ∧ p x = false := by
  induction l with
  | nil => exact Or.inl rfl
  | cons a l ih =>
    by_cases hpa : p a = true
    · rw [List.dropWhile_cons_of_pos hpa]
      exact ih
    · rw [List.dropWhile_cons_of_neg hpa]
      exact Or.inr ⟨a, l, rfl, by simpa using hpa⟩

theorem dropWhile_dropWhile {α : Type} (p : α → Bool) (l : List α) :
    (l.dropWhile p).dropWhile p = l.dropWhile p := by
  rcases dropWhile_head_not p l with h | ⟨x, xs, hx, hpx⟩
  · rw [h]; rfl
  · rw [hx, List.dropWhile_cons_of_neg (by simp [hpx])]

theorem pyStrip_ws_right {w : PyStr} (hw : ∀ x ∈ w, pyIsSpace x) (s : PyStr) :
    pyStrip (s ++ w) = pyStrip s := by
  unfold pyStrip
  rw [List.dropWhile_append]
  by_cases he : (s.dropWhile pyIsSpace).isEmpty
  · rw [if_pos he]
    have hw0 : w.dropWhile pyIsSpace = [] := by
      induction w with
      | nil => rfl
      | cons x xs ih =>
        rw [List.dropWhile_cons_of_pos (hw x (List.mem_cons_self x xs))]
        exact ih fun y hy => hw y (List.mem_cons_of_mem _ hy)
    have hs0 : s.dropWhile pyIsSpace = [] := by
      simpa [List.isEmpty_iff] using he
    rw [hw0, hs0]
  · rw [if_neg he]
    rw [List.reverse_append,
      List.dropWhile_append_of_pos (by simpa using fun x hx => hw x hx)]

theorem pyStrip_drop_left (s : PyStr) :
    (pyStrip s).dropWhile pyIsSpace = pyStrip s := by
  unfold pyStrip
  rcases dropWhile_head_not pyIsSpace s with h0 | ⟨x, xs, hx, hpx⟩
  · rw [h0]
    rfl
  · rw [hx]
    cases hwr : ((x :: xs).reverse.dropWhile pyIsSpace).reverse with
    | nil => rfl
    | cons y ys =>
      have hy : y = x := by
        have hd : (x :: xs).reverse.takeWhile pyIsSpace ++
            (x :: xs).reverse.dropWhile pyIsSpace = (x :: xs).reverse :=
          List.takeWhile_append_dropWhile _ _
        have := congrArg List.reverse hd
        rw [List.reverse_append, List.reverse_reverse] at this
        rw [hwr] at this
        exact ((List.cons.injEq _ _ _ _).mp this.symm).1.symm
      rw [List.dropWhile_cons_of_neg (by simp [hy, hpx])]

theorem pyStrip_rev_drop (s : PyStr) :
    (pyStrip s).reverse.dropWhile pyIsSpace = (pyStrip s).reverse := by
  unfold pyStrip
  rw [List.reverse_reverse]
  exact dropWhile_dropWhile _ _

theorem pyStrip_idem (s : PyStr) : pyStrip (pyStrip s) = pyStrip s := by
  show ((((pyStrip s).dropWhile pyIsSpace).reverse.dropWhile pyIsSpace)).reverse
      = pyStrip s
  rw [pyStrip_drop_left, pyStrip_rev_drop, List.reverse_reverse]

theorem mem_pyStrip {x : Char} {s : PyStr} (h : x ∈ pyStrip s) : x ∈ s := by
  unfold pyStrip at h
  rw [List.mem_reverse] at h
  have h2 := List.dropWhile_subset _ h
  rw [List.mem_reverse] at h2
  exact List.dropWhile_subset _ h2

/-! ## Invariance of `normalize_assembly_line` (comments, whitespace) -/

theorem normalize_append_hash (l c : PyStr) :
    normalize_assembly_line (l ++ '#' :: c) = normalize_assembly_line l := by
  have hh : cutAt '#' (l ++ '#' :: c) = cutAt '#' l := by
    by_cases h : '#' ∈ l
    · exact cutAt_append_of_mem h _
    · rw [cutAt_append_of_not_mem h, cutAt_of_not_mem h]
      have h0 : cutAt '#' ('#' :: c) = [] := by
        unfold cutAt
        rw [List.takeWhile_cons_of_neg (by simp)]
      rw [h0, List.append_nil]
  rw [normalize_eq, normalize_eq, hh]

theorem normalize_append_semi (l c : PyStr) :
    normalize_assembly_line (l ++ ';' :: c) = normalize_assembly_line l := by
  rw [normalize_eq, normalize_eq]
  by_cases h : '#' ∈ l
  · rw [cutAt_append_of_mem h]
  · rw [cutAt_append_of_not_mem h, cutAt_of_not_mem h]
    have h1 : cutAt '#' (';' :: c) = ';' :: cutAt '#' c := by
      unfold cutAt
      rw [List.takeWhile_cons_of_pos (by simp)]
    rw [h1]
    by_cases h2 : ';' ∈ l
    · rw [cutAt_append_of_mem h2]
    · rw [cutAt_append_of_not_mem h2, cutAt_of_not_mem h2]
      have h3 : cutAt ';' (';' :: cutAt '#' c) = [] := by
        unfold cutAt
        rw [List.takeWhile_cons_of_neg (by simp)]
      rw [h3, List.append_nil]

theorem normalize_ws_pad {w1 w2 : PyStr} (h1 : ∀ x ∈ w1, pyIsSpace x)
    (h2 : ∀ x ∈ w2, pyIsSpace x) (m : PyStr) :
    normalize_assembly_line (w1 ++ m ++ w2) =
      normalize_assembly_line m := by
  have hw1h : '#' ∉ w1 := not_mem_of_ws h1 (by decide)
  have hw1s : ';' ∉ w1 := not_mem_of_ws h1 (by decide)
  have hw2h : '#' ∉ w2 := not_mem_of_ws h2 (by decide)
  have hw2s : ';' ∉ w2 := not_mem_of_ws h2 (by decide)
  rw [normalize_eq, normalize_eq, List.append_assoc,
    cutAt_append_of_not_mem hw1h, cutAt_append_of_not_mem hw1s,
    pyStrip_ws_left h1]
  by_cases hm : '#' ∈ m
  · rw [cutAt_append_of_mem hm]
  · rw [cutAt_append_of_not_mem hm, cutAt_of_not_mem hw2h,
      cutAt_of_not_mem hm]
    by_cases hsm : ';' ∈ m
    · rw [cutAt_append_of_mem hsm]
    · rw [cutAt_append_of_not_mem hsm, cutAt_of_not_mem hw2s,
        cutAt_of_not_mem hsm, pyStrip_ws_right h2]

/-! ## Idempotence ingredients for `normalize_assembly_line` -/

theorem hash_not_mem_normalize (s : PyStr) :
    '#' ∉ normalize_assembly_line s := by
  rw [normalize_eq]
  intro h
  have h1 := mem_pyStrip h
  have h2 := (mem_of_cutAt h1).1
  exact (mem_of_cutAt h2).2 rfl

theorem semi_not_mem_normalize (s : PyStr) :
    ';' ∉ normalize_assembly_line s := by
  rw [normalize_eq]
  intro h
  exact (mem_of_cutAt (mem_pyStrip h)).2 rfl

theorem pyStrip_normalize (s : PyStr) :
    pyStrip (normalize_assembly_line s) = normalize_assembly_line s := by
  rw [normalize_eq, pyStrip_idem]

theorem contains_eq_false_of_not_mem {c : Char} {s : PyStr} (h : c ∉ s) :
    s.contains c = false := by
  by_contra hc
  rw [Bool.not_eq_false] at hc
  rcases List.contains_iff_exists_mem_beq.mp hc with ⟨x, hx, hbeq⟩
  rw [beq_iff_eq] at hbeq
  exact h (hbeq ▸ hx)

/-! ## Structure of `extract_instructions` -/

/-- The per-line selector implicit in the loop of `extract_instructions`. -/
def instSelector (l : PyStr) : Option PyStr :=
  let n := normalize_assembly_line l
  if n = [] then none
  else if labelMatch n then none
  else if startsDot n then none
  else (splitWs n).head?

theorem extract_eq_filterMap (lines : List PyStr) :
    extract_instructions lines = lines.filterMap instSelector := by
  induction lines with
  | nil => rfl
  | cons l ls ih =>
    rw [List.filterMap_cons]
    show (let n := normalize_assembly_line l
          let rest := extract_instructions ls
          if n = [] then rest
          else if labelMatch n then rest
          else if startsDot n then rest
          else match splitWs n with
            | [] => rest
            | p :: _ => p :: rest) = _
    simp only [instSelector]
    by_cases h1 : normalize_assembly_line l = []
    · simp only [if_pos h1]; exact ih
    · simp only [if_neg h1]
      by_cases h2 : labelMatch (normalize_assembly_line l) = true
      · simp only [if_pos h2]; exact ih
      · simp only [if_neg h2]
        by_cases h3 : startsDot (normalize_assembly_line l) = true
        · simp only [if_pos h3]; exact ih
        · simp only [if_neg h3]
          cases hsp : splitWs (normalize_assembly_line l) with
          | nil => simp only [List.head?_nil]; exact ih
          | cons p ps => simp only [List.head?_cons]; rw [ih]

/-- Lines with equal normalizations contribute equally to
`extract_instructions`. -/
theorem extract_congr {A B : List PyStr}
    (h : List.Forall₂
      (fun l m => normalize_assembly_line m = normalize_assembly_line l)
      A B) : extract_instructions B = extract_instructions A := by
  induction h with
  | nil => rfl
  | cons hlm htail ih =>
    show extract_instructions (_ :: _) = extract_instructions (_ :: _)
    unfold extract_instructions
    rw [hlm, ih]

/-- The non-empty normalized lines of `calculate_similarity`, as a
function. -/
def normLines (lines : List PyStr) : List PyStr :=
  (lines.map normalize_assembly_line).filter (fun l => !l.isEmpty)

theorem lineRatio_eq (lines1 lines2 : List PyStr) :
    lineRatio lines1 lines2 = ratio (normLines lines1) (normLines lines2) :=
  rfl

theorem normLines_congr {A B : List PyStr}
    (h : List.Forall₂
      (fun l m => normalize_assembly_line m = normalize_assembly_line l)
      A B) : normLines B = normLines A := by
  induction h with
  | nil => rfl
  | cons hlm htail ih =>
    show normLines (_ :: _) = normLines (_ :: _)
    unfold normLines at ih ⊢
    rw [List.map_cons, List.map_cons, List.filter_cons, List.filter_cons,
      hlm, ih]

/-! ## Self-match analysis of `find_longest_match`

For the identity and symmetry claims we prove that matching a sequence
against itself finds the whole sequence as one block:
`find_longest_match x x lo hi lo hi = (lo, lo, hi - lo)`.  The key fact is
that the best block maintained by the row loop always lies on the diagonal;
the extension loops then stretch any diagonal block to the full window. -/

theorem mem_b2j_getD {x : List PyStr} {v : PyStr} {j : Nat}
    (h : j ∈ b2j x v) : j < x.length ∧ x.getD j [] = v := by
  unfold b2j at h
  split at h
  · cases h
  · rcases List.mem_filter.mp h with ⟨hr, hv⟩
    exact ⟨List.mem_range.mp hr, by simpa using hv⟩

theorem mem_b2j_of_getD {x : List PyStr} {v : PyStr} {j p : Nat}
    (h : j ∈ b2j x v) (hp : p < x.length) (hv : x.getD p [] = v) :
    p ∈ b2j x v := by
  unfold b2j at h ⊢
  split at h
  · cases h
  · next hcond =>
    rw [if_neg hcond]
    exact List.mem_filter.mpr ⟨List.mem_range.mpr hp, by simpa using hv⟩

/-- Column `j` receives a `j2len` entry in row `r` of the self-match of `x`
on the window `[lo, hi)`. -/
def avail (x : List PyStr) (lo hi r j : Nat) : Prop :=
  lo ≤ r ∧ r < hi ∧ lo ≤ j ∧ j < hi ∧ j ∈ b2j x (x.getD r [])

instance availDec (x : List PyStr) (lo hi r j : Nat) :
    Decidable (avail x lo hi r j) := by
  unfold avail
  infer_instance

/-- Value of the `j2len` entry at column `j` after row `r` of the
self-match (`0` when there is no entry). -/
def chainLen (x : List PyStr) (lo hi : Nat) : Nat → Nat → Nat
  | 0, j => if avail x lo hi 0 j then 1 else 0
  | r + 1, j =>
    if avail x lo hi (r + 1) j then
      (if lo < r + 1 ∧ lo < j then chainLen x lo hi r (j - 1) else 0) + 1
    else 0

theorem chainLen_of_not_avail {x : List PyStr} {lo hi r j : Nat}
    (h : ¬ avail x lo hi r j) : chainLen x lo hi r j = 0 := by
  cases r with
  | zero => exact if_neg h
  | succ r => exact if_neg h

theorem chainLen_pos_of_avail {x : List PyStr} {lo hi r j : Nat}
    (h : avail x lo hi r j) : 1 ≤ chainLen x lo hi r j := by
  cases r with
  | zero => rw [chainLen, if_pos h]
  | succ r => rw [chainLen, if_pos h]; omega

/-- The diagonal entry of a row is available as soon as any entry is. -/
theorem avail_diag {x : List PyStr} {lo hi r j : Nat}
    (hhn : hi ≤ x.length) (h : avail x lo hi r j) : avail x lo hi r r := by
  obtain ⟨h1, h2, h3, h4, h5⟩ := h
  exact ⟨h1, h2, h1, h2,
    mem_b2j_of_getD h5 (Nat.lt_of_lt_of_le h2 hhn) rfl⟩

/-- An available column is itself available as a (diagonal) row. -/
theorem avail_col {x : List PyStr} {lo hi r j : Nat}
    (h : avail x lo hi r j) : avail x lo hi j j := by
  obtain ⟨h1, h2, h3, h4, h5⟩ := h
  have hj := mem_b2j_getD h5
  exact ⟨h3, h4, h3, h4, by rw [hj.2]; exact h5⟩

/-- Entry sizes are bounded by the number of processed rows. -/
theorem chainLen_le_row (x : List PyStr) (lo hi : Nat) :
    ∀ r j, chainLen x lo hi r j ≤ r + 1 - lo := by
  intro r
  induction r with
  | zero =>
    intro j
    by_cases h : avail x lo hi 0 j
    · rw [chainLen, if_pos h]
      have := h.1
      omega
    · rw [chainLen, if_neg h]; omega
  | succ r ih =>
    intro j
    by_cases h : avail x lo hi (r + 1) j
    · rw [chainLen, if_pos h]
      have hlr := h.1
      by_cases hc : lo < r + 1 ∧ lo < j
      · rw [if_pos hc]
        have := ih (j - 1)
        omega
      · rw [if_neg hc]
        omega
    · rw [chainLen, if_neg h]; omega

/-- Entry sizes are bounded by the column offset inside the window. -/
theorem chainLen_le_col (x : List PyStr) (lo hi : Nat) :
    ∀ r j, chainLen x lo hi r j ≤ j + 1 - lo := by
  intro r
  induction r with
  | zero =>
    intro j
    by_cases h : avail x lo hi 0 j
    · rw [chainLen, if_pos h]
      have := h.2.2.1
      omega
    · rw [chainLen, if_neg h]; omega
  | succ r ih =>
    intro j
    by_cases h : avail x lo hi (r + 1) j
    · rw [chainLen, if_pos h]
      have hlj := h.2.2.1
      by_cases hc : lo < r + 1 ∧ lo < j
      · rw [if_pos hc]
        have := ih (j - 1)
        omega
      · rw [if_neg hc]
        omega
    · rw [chainLen, if_neg h]; omega

/-- Within one row the diagonal entry dominates every entry. -/
theorem chainLen_le_diag (x : List PyStr) (lo hi : Nat)
    (hhn : hi ≤ x.length) :
    ∀ r j, chainLen x lo hi r j ≤ chainLen x lo hi r r := by
  intro r
  induction r with
  | zero =>
    intro j
    by_cases h : avail x lo hi 0 j
    · have hd := avail_diag hhn h
      rw [chainLen, if_pos h, chainLen, if_pos hd]
    · rw [chainLen, if_neg h]; omega
  | succ r ih =>
    intro j
    by_cases h : avail x lo hi (r + 1) j
    · have hd := avail_diag hhn h
      rw [chainLen, if_pos h, chainLen, if_pos hd]
      by_cases hc : lo < r + 1 ∧ lo < j
      · rw [if_pos hc, if_pos ⟨hc.1, hc.1⟩]
        exact Nat.add_le_add_right (Nat.le_trans (ih (j - 1)) (ih r)) 1
      · rw [if_neg hc]
        omega
    · rw [chainLen, if_neg h]; omega

/-- An entry below the diagonal is dominated by the diagonal entry of the
row at its column: the chain ending at `(r, j)` with `j < r` has a diagonal
twin ending at `(j, j)`. -/
theorem chainLen_le_col_diag (x : List PyStr) (lo hi : Nat) :
    ∀ r j, j < r → chainLen x lo hi r j ≤ chainLen x lo hi j j := by
  intro r
  induction r with
  | zero => intro j hj; omega
  | succ r ih =>
    intro j hj
    by_cases h : avail x lo hi (r + 1) j
    · have hcol := avail_col h
      rw [chainLen, if_pos h]
      by_cases hc : lo < r + 1 ∧ lo < j
      · rw [if_pos hc]
        have hj1 : 0 < j := Nat.lt_of_le_of_lt (Nat.zero_le lo) hc.2
        -- chainLen j j = chainLen (j-1) (j-1) + 1 via the pattern at j
        obtain ⟨j0, rfl⟩ : ∃ j0, j = j0 + 1 := ⟨j - 1, by omega⟩
        rw [chainLen, if_pos hcol, if_pos ⟨hc.2, hc.2⟩]
        have hstep := ih j0 (by omega)
        simpa using Nat.add_le_add_right hstep 1
      · rw [if_neg hc]
        exact chainLen_pos_of_avail hcol
    · rw [chainLen_of_not_avail h]; omega

/-- Entries of the previous row, with the virtual all-zero row before the
first one. -/
def chainPrev (x : List PyStr) (lo hi : Nat) : Nat → Nat → Nat
  | 0, _ => 0
  | r + 1, j => chainLen x lo hi r j

/-- The value computed by the inner loop for an available column equals
`chainLen`. -/
theorem chainLen_eq_step {x : List PyStr} {lo hi r j : Nat}
    (h : avail x lo hi r j) :
    chainLen x lo hi r j =
      (if j = 0 then 0 else chainPrev x lo hi r (j - 1)) + 1 := by
  cases r with
  | zero =>
    rw [chainLen, if_pos h]
    cases j with
    | zero => rfl
    | succ j => rfl
  | succ r =>
    rw [chainLen, if_pos h]
    by_cases hc : lo < r + 1 ∧ lo < j
    · rw [if_pos hc, if_neg (by omega : ¬ j = 0)]
      rfl
    · rw [if_neg hc]
      rcases Nat.lt_or_ge j 1 with hj | hj
      · rw [if_pos (by omega : j = 0)]
      · rw [if_neg (by omega : ¬ j = 0)]
        show _ = chainLen x lo hi r (j - 1) + 1
        rw [chainLen_of_not_avail]
        intro hav
        rcases Nat.lt_or_ge lo (r + 1) with h1 | h1
        · exact absurd hav.2.2.1 (by omega)
        · exact absurd hav.1 (by omega)

theorem lookJ_cons (j k : Nat) (acc : List (Nat × Nat)) (j' : Nat) :
    lookJ ((j, k) :: acc) j' = if j' = j then k else lookJ acc j' := by
  unfold lookJ
  rw [List.lookup_cons]
  by_cases h : j' = j
  · subst h
    simp
  · have hb : (j' == j) = false := by simpa using h
    simp [hb, h]

/-- One row of the self-match: the inner loop records exactly the
`chainLen` entries of the processed columns and keeps the best block on the
diagonal, never shrinking it and covering the diagonal entry of the row. -/
theorem innerLoop_self (x : List PyStr) (lo hi : Nat)
    (hhn : hi ≤ x.length) (r : Nat) (hlr : lo ≤ r) (hrh : r < hi)
    (old : List (Nat × Nat))
    (hold : ∀ j, lookJ old j = chainPrev x lo hi r j) :
    ∀ (js : List Nat), js.Pairwise (· < ·) →
    (∀ j ∈ js, j ∈ b2j x (x.getD r [])) →
    ∀ (acc : List (Nat × Nat)) (bi bj bs : Nat), bi = bj → lo ≤ bi →
    bi + bs ≤ r + 1 →
    (∀ p, lo ≤ p → p < r → chainLen x lo hi p p ≤ bs) →
    (r ∈ js ∨ chainLen x lo hi r r ≤ bs) →
    ((∀ j', lookJ (innerLoop r lo hi js old acc (bi, bj, bs)).1 j' =
        if j' ∈ js ∧ lo ≤ j' ∧ j' < hi then chainLen x lo hi r j'
        else lookJ acc j') ∧
     (innerLoop r lo hi js old acc (bi, bj, bs)).2.1 =
        (innerLoop r lo hi js old acc (bi, bj, bs)).2.2.1 ∧
     lo ≤ (innerLoop r lo hi js old acc (bi, bj, bs)).2.1 ∧
     (innerLoop r lo hi js old acc (bi, bj, bs)).2.1 +
        (innerLoop r lo hi js old acc (bi, bj, bs)).2.2.2 ≤ r + 1 ∧
     bs ≤ (innerLoop r lo hi js old acc (bi, bj, bs)).2.2.2 ∧
     chainLen x lo hi r r ≤
        (innerLoop r lo hi js old acc (bi, bj, bs)).2.2.2) := by
  intro js
  induction js with
  | nil =>
    intro _ _ acc bi bj bs hd hbl hbr hD2 hRr
    refine ⟨fun j' => by simp [innerLoop], ?_⟩
    simp only [innerLoop]
    have hRr' : chainLen x lo hi r r ≤ bs := by
      rcases hRr with h | h
      · cases h
      · exact h
    exact ⟨hd, hbl, hbr, Nat.le_refl _, hRr'⟩
  | cons j js ih =>
    intro hsort hsub acc bi bj bs hd hbl hbr hD2 hRr
    have hsort' := List.Pairwise.sublist (List.sublist_cons_self j js) hsort
    have htail : ∀ m ∈ js, j < m := by
      intro m hm
      exact (List.pairwise_cons.mp hsort).1 m hm
    have hjnotin : j ∉ js := fun hm => Nat.lt_irrefl j (htail j hm)
    have hsub' : ∀ m ∈ js, m ∈ b2j x (x.getD r []) :=
      fun m hm => hsub m (List.mem_cons_of_mem _ hm)
    by_cases hskip : j < lo
    · -- `continue` branch
      have hstep : innerLoop r lo hi (j :: js) old acc (bi, bj, bs) =
          innerLoop r lo hi js old acc (bi, bj, bs) := by
        simp only [innerLoop]
        rw [if_pos hskip]
      rw [hstep]
      have hRr' : r ∈ js ∨ chainLen x lo hi r r ≤ bs := by
        rcases hRr with h | h
        · rcases List.mem_cons.mp h with h1 | h1
          · omega
          · exact Or.inl h1
        · exact Or.inr h
      obtain ⟨hmap, hrest⟩ := ih hsort' hsub' acc bi bj bs hd hbl hbr hD2 hRr'
      refine ⟨fun j' => ?_, hrest⟩
      rw [hmap j']
      by_cases hj' : j' ∈ js ∧ lo ≤ j' ∧ j' < hi
      · rw [if_pos hj', if_pos ⟨List.mem_cons_of_mem _ hj'.1, hj'.2⟩]
      · rw [if_neg hj', if_neg ?_]
        intro ⟨hm, h2, h3⟩
        rcases List.mem_cons.mp hm with h1 | h1
        · omega
        · exact hj' ⟨h1, h2, h3⟩
    · by_cases hbrk : hi ≤ j
      · -- `break` branch
        have hstep : innerLoop r lo hi (j :: js) old acc (bi, bj, bs) =
            (acc, (bi, bj, bs)) := by
          simp only [innerLoop]
          rw [if_neg hskip, if_pos hbrk]
        rw [hstep]
        have hRr' : chainLen x lo hi r r ≤ bs := by
          rcases hRr with h | h
          · rcases List.mem_cons.mp h with h1 | h1
            · omega
            · have := htail r h1
              omega
          · exact h
        refine ⟨fun j' => ?_, hd, hbl, hbr, Nat.le_refl _, hRr'⟩
        rw [if_neg ?_]
        intro ⟨hm, h2, h3⟩
        rcases List.mem_cons.mp hm with h1 | h1
        · omega
        · have := htail j' h1
          omega
      · -- processed column
        have hwin1 : lo ≤ j := by omega
        have hwin2 : j < hi := by omega
        have hav : avail x lo hi r j :=
          ⟨hlr, hrh, hwin1, hwin2, hsub j (List.mem_cons_self j js)⟩
        have hkval : (if j = 0 then 0 else lookJ old (j - 1)) + 1 =
            chainLen x lo hi r j := by
          rw [chainLen_eq_step hav]
          by_cases hj0 : j = 0
          · rw [if_pos hj0, if_pos hj0]
          · rw [if_neg hj0, if_neg hj0, hold (j - 1)]
        have hstep : innerLoop r lo hi (j :: js) old acc (bi, bj, bs) =
            innerLoop r lo hi js old ((j, chainLen x lo hi r j) :: acc)
              (if bs < chainLen x lo hi r j then
                (r + 1 - chainLen x lo hi r j,
                 j + 1 - chainLen x lo hi r j, chainLen x lo hi r j)
               else (bi, bj, bs)) := by
          simp only [innerLoop]
          rw [if_neg hskip, if_neg hbrk, hkval]
        rw [hstep]
        by_cases hup : bs < chainLen x lo hi r j
        · -- a strict improvement forces the diagonal column
          have hjr : j = r := by
            rcases Nat.lt_trichotomy j r with hlt | heq | hgt
            · have h1 := chainLen_le_col_diag x lo hi r j hlt
              have h2 := hD2 j hwin1 hlt
              omega
            · exact heq
            · have h1 := chainLen_le_diag x lo hi hhn r j
              have h2 : chainLen x lo hi r r ≤ bs := by
                rcases hRr with h | h
                · rcases List.mem_cons.mp h with h3 | h3
                  · omega
                  · have := htail r h3
                    omega
                · exact h
              omega
          rw [if_pos hup]
          have hkler : chainLen x lo hi r j ≤ r + 1 - lo :=
            chainLen_le_row x lo hi r j
          have hkpos : 1 ≤ chainLen x lo hi r j := chainLen_pos_of_avail hav
          obtain ⟨hmap, hrest⟩ := ih hsort' hsub'
            ((j, chainLen x lo hi r j) :: acc)
            (r + 1 - chainLen x lo hi r j) (j + 1 - chainLen x lo hi r j)
            (chainLen x lo hi r j) (by rw [hjr]) (by omega) (by omega)
            (fun p hp1 hp2 => by
              have := hD2 p hp1 hp2
              omega)
            (Or.inr (by rw [hjr]))
          refine ⟨fun j' => ?_, hrest.1, hrest.2.1, hrest.2.2.1,
            by omega, hrest.2.2.2.2⟩
          rw [hmap j']
          by_cases hj' : j' ∈ js ∧ lo ≤ j' ∧ j' < hi
          · rw [if_pos hj', if_pos ⟨List.mem_cons_of_mem _ hj'.1, hj'.2⟩]
          · rw [if_neg hj', lookJ_cons]
            by_cases hej : j' = j
            · subst hej
              rw [if_pos rfl, if_pos ⟨List.mem_cons_self _ _, hwin1, hwin2⟩]
            · rw [if_neg hej, if_neg ?_]
              intro ⟨hm, h2, h3⟩
              rcases List.mem_cons.mp hm with h1 | h1
              · exact hej h1
              · exact hj' ⟨h1, h2, h3⟩
        · -- no improvement
          rw [if_neg hup]
          have hRr' : r ∈ js ∨ chainLen x lo hi r r ≤ bs := by
            rcases hRr with h | h
            · rcases List.mem_cons.mp h with h1 | h1
              · right
                rw [h1] at hup ⊢
                omega
              · exact Or.inl h1
            · exact Or.inr h
          obtain ⟨hmap, hrest⟩ := ih hsort' hsub'
            ((j, chainLen x lo hi r j) :: acc) bi bj bs hd hbl hbr hD2 hRr'
          refine ⟨fun j' => ?_, hrest⟩
          rw [hmap j']
          by_cases hj' : j' ∈ js ∧ lo ≤ j' ∧ j' < hi
          · rw [if_pos hj', if_pos ⟨List.mem_cons_of_mem _ hj'.1, hj'.2⟩]
          · rw [if_neg hj', lookJ_cons]
            by_cases hej : j' = j
            · subst hej
              rw [if_pos rfl, if_pos ⟨List.mem_cons_self _ _, hwin1, hwin2⟩]
            · rw [if_neg hej, if_neg ?_]
              intro ⟨hm, h2, h3⟩
              rcases List.mem_cons.mp hm with h1 | h1
              · exact hej h1
              · exact hj' ⟨h1, h2, h3⟩

theorem b2j_sorted (x : List PyStr) (v : PyStr) :
    (b2j x v).Pairwise (· < ·) := by
  unfold b2j
  split
  · exact List.Pairwise.nil
  · exact List.Pairwise.filter _ (List.pairwise_lt_range _)

theorem chainPrev_first (x : List PyStr) (lo hi j : Nat) :
    chainPrev x lo hi lo j = 0 := by
  cases lo with
  | zero => rfl
  | succ l =>
    exact chainLen_of_not_avail (fun hav => by have := hav.1; omega)

/-- The row loop of the self-match returns a diagonal block inside the
window. -/
theorem rowLoop_self (x : List PyStr) (lo hi : Nat) (hhn : hi ≤ x.length) :
    ∀ (cnt r : Nat), lo ≤ r → r + cnt = hi →
    ∀ (M : List (Nat × Nat)) (bi bj bs : Nat),
    (∀ j, lookJ M j = chainPrev x lo hi r j) →
    bi = bj → lo ≤ bi → bi + bs ≤ r →
    (∀ p, lo ≤ p → p < r → chainLen x lo hi p p ≤ bs) →
    ((rowLoop x x lo hi (List.range' r cnt) M (bi, bj, bs)).1 =
       (rowLoop x x lo hi (List.range' r cnt) M (bi, bj, bs)).2.1 ∧
     lo ≤ (rowLoop x x lo hi (List.range' r cnt) M (bi, bj, bs)).1 ∧
     (rowLoop x x lo hi (List.range' r cnt) M (bi, bj, bs)).1 +
       (rowLoop x x lo hi (List.range' r cnt) M (bi, bj, bs)).2.2 ≤ hi) := by
  intro cnt
  induction cnt with
  | zero =>
    intro r hlr hrh M bi bj bs hM hd hbl hbr hD2
    simp only [List.range'_zero, rowLoop]
    exact ⟨hd, hbl, by omega⟩
  | succ cnt ih =>
    intro r hlr hrh M bi bj bs hM hd hbl hbr hD2
    rw [List.range'_succ]
    have hrhi : r < hi := by omega
    have hRr : r ∈ b2j x (x.getD r []) ∨ chainLen x lo hi r r ≤ bs := by
      by_cases hm : r ∈ b2j x (x.getD r [])
      · exact Or.inl hm
      · refine Or.inr ?_
        rw [chainLen_of_not_avail (fun hav => hm hav.2.2.2.2)]
        omega
    obtain ⟨hmap, hsd, hsl, hsr, hsm, hsdg⟩ :=
      innerLoop_self x lo hi hhn r hlr hrhi M hM
        (b2j x (x.getD r [])) (b2j_sorted x _) (fun _ h => h)
        [] bi bj bs hd hbl (by omega) hD2 hRr
    show (rowLoop x x lo hi (List.range' (r + 1) cnt)
        (innerLoop r lo hi (b2j x (x.getD r [])) M [] (bi, bj, bs)).1
        (innerLoop r lo hi (b2j x (x.getD r [])) M [] (bi, bj, bs)).2).1 =
        _ ∧ _ ∧ _
    set st := innerLoop r lo hi (b2j x (x.getD r [])) M [] (bi, bj, bs)
      with hst
    have hM' : ∀ j, lookJ st.1 j = chainPrev x lo hi (r + 1) j := by
      intro j
      rw [hmap j]
      show _ = chainLen x lo hi r j
      by_cases hc : j ∈ b2j x (x.getD r []) ∧ lo ≤ j ∧ j < hi
      · rw [if_pos hc]
      · rw [if_neg hc]
        rw [chainLen_of_not_avail
          (fun hav => hc ⟨hav.2.2.2.2, hav.2.2.1, hav.2.2.2.1⟩)]
        rfl
    have hD2' : ∀ p, lo ≤ p → p < r + 1 → chainLen x lo hi p p ≤ st.2.2.2 := by
      intro p h1 h2
      rcases Nat.lt_or_ge p r with h3 | h3
      · exact Nat.le_trans (hD2 p h1 h3) hsm
      · have : p = r := by omega
        subst this
        exact hsdg
    have := ih (r + 1) (by omega) (by omega) st.1 st.2.1 st.2.2.1 st.2.2.2
      hM' hsd hsl hsr hD2'
    have heta : (st.2.1, st.2.2.1, st.2.2.2) = st.2 := rfl
    rw [heta] at this
    exact this

theorem extendBack_self (x : List PyStr) (lo : Nat) :
    ∀ (fuel d s : Nat), lo ≤ d → d ≤ lo + fuel →
      extendBack x x lo lo fuel (d, d, s) = (lo, lo, s + (d - lo)) := by
  intro fuel
  induction fuel with
  | zero =>
    intro d s h1 h2
    have hd : d = lo := by omega
    subst hd
    simp [extendBack]
  | succ fuel ih =>
    intro d s h1 h2
    by_cases hd : lo < d
    · show extendBack x x lo lo (fuel + 1) (d, d, s) = _
      rw [show extendBack x x lo lo (fuel + 1) (d, d, s) =
          extendBack x x lo lo fuel (d - 1, d - 1, s + 1) by
        simp only [extendBack]
        rw [if_pos ⟨hd, hd, trivial⟩]]
      rw [ih (d - 1) (s + 1) (by omega) (by omega)]
      have : s + 1 + (d - 1 - lo) = s + (d - lo) := by omega
      rw [this]
    · simp only [extendBack]
      rw [if_neg (fun hc => hd hc.1)]
      have hd2 : d = lo := by omega
      subst hd2
      simp

theorem extendFwd_self (x : List PyStr) (lo hi : Nat) :
    ∀ (fuel s : Nat), lo + s ≤ hi → hi ≤ lo + s + fuel →
      extendFwd x x hi hi fuel (lo, lo, s) = (lo, lo, hi - lo) := by
  intro fuel
  induction fuel with
  | zero =>
    intro s h1 h2
    have hs : s = hi - lo := by omega
    subst hs
    simp [extendFwd]
  | succ fuel ih =>
    intro s h1 h2
    by_cases hlt : lo + s < hi
    · rw [show extendFwd x x hi hi (fuel + 1) (lo, lo, s) =
          extendFwd x x hi hi fuel (lo, lo, s + 1) by
        simp only [extendFwd]
        rw [if_pos ⟨hlt, hlt, trivial⟩]]
      exact ih (s + 1) (by omega) (by omega)
    · have hs : s = hi - lo := by omega
      subst hs
      simp only [extendFwd]
      rw [if_neg (fun hc => hlt hc.1)]

/-- Matching a sequence against itself finds the whole window as one
diagonal block. -/
theorem find_self (x : List PyStr) (lo hi : Nat) (hlh : lo ≤ hi)
    (hhn : hi ≤ x.length) :
    find_longest_match x x lo hi lo hi = (lo, lo, hi - lo) := by
  have key : ∀ bi bj bs : Nat, bi = bj → lo ≤ bi → bi + bs ≤ hi →
      extendFwd x x hi hi
        (hi - ((extendBack x x lo lo bi (bi, bj, bs)).1 +
          (extendBack x x lo lo bi (bi, bj, bs)).2.2))
        (extendBack x x lo lo bi (bi, bj, bs)) = (lo, lo, hi - lo) := by
    intro bi bj bs hd hbl hbr
    subst hd
    rw [extendBack_self x lo bi bi bs hbl (by omega)]
    show extendFwd x x hi hi (hi - (lo + (bs + (bi - lo))))
      (lo, lo, bs + (bi - lo)) = (lo, lo, hi - lo)
    exact extendFwd_self x lo hi _ _ (by omega) (by omega)
  obtain ⟨hd, hbl, hbr⟩ := rowLoop_self x lo hi hhn (hi - lo) lo
    (Nat.le_refl lo) (by omega) [] lo lo 0
    (fun j => by
      show (0 : Nat) = chainPrev x lo hi lo j
      rw [chainPrev_first])
    rfl (Nat.le_refl lo) (by omega) (fun p h1 h2 => by omega)
  show extendFwd x x hi hi _ _ = _
  have heta : rowLoop x x lo hi (List.range' lo (hi - lo)) [] (lo, lo, 0) =
      ((rowLoop x x lo hi (List.range' lo (hi - lo)) [] (lo, lo, 0)).1,
       (rowLoop x x lo hi (List.range' lo (hi - lo)) [] (lo, lo, 0)).2.1,
       (rowLoop x x lo hi (List.range' lo (hi - lo)) [] (lo, lo, 0)).2.2) :=
    rfl
  rw [heta]
  exact key _ _ _ hd hbl hbr

theorem matchTotal_empty (x : List PyStr) (lo : Nat) (hlo : lo ≤ x.length) :
    ∀ fuel, matchTotal x x fuel lo lo lo lo = 0 := by
  intro fuel
  cases fuel with
  | zero => rfl
  | succ fuel =>
    simp only [matchTotal]
    rw [find_self x lo lo (Nat.le_refl lo) hlo]
    simp

/-- `SequenceMatcher.ratio()` of a sequence against itself is `1`
(including the empty case, by the `_calculate_ratio` convention). -/
theorem ratio_self (x : List PyStr) : ratio x x = 1 := by
  unfold ratio
  by_cases hn : x.length + x.length = 0
  · rw [if_pos hn]
  · rw [if_neg hn]
    have hM : matchTotal x x (x.length + x.length + 1) 0 x.length 0
        x.length = x.length := by
      simp only [matchTotal]
      rw [find_self x 0 x.length (Nat.zero_le _) (Nat.le_refl _)]
      have hz : x.length - 0 = x.length := by omega
      rw [if_neg (show ¬ (0, 0, x.length - 0).2.2 = 0 by
        show ¬ x.length - 0 = 0
        omega)]
      show x.length - 0 + matchTotal x x _ 0 0 0 0 +
          matchTotal x x _ (0 + (x.length - 0)) x.length
            (0 + (x.length - 0)) x.length = x.length
      rw [matchTotal_empty x 0 (Nat.zero_le _)]
      have he : 0 + (x.length - 0) = x.length := by omega
      rw [he, matchTotal_empty x x.length (Nat.le_refl _)]
      omega
    rw [hM]
    have hne : ((x.length + x.length : Nat) : ℚ) ≠ 0 := by
      rw [Nat.cast_ne_zero]
      exact hn
    rw [div_eq_one_iff_eq hne]
    push_cast
    ring

/-- Identity on the computed record: both ratios are `1` when the
instruction sequence is non-empty. -/
theorem computeSimilarity_self (lines : List PyStr)
    (h : extract_instructions lines ≠ []) :
    computeSimilarity lines lines = ⟨1, 1, 1⟩ := by
  have hl : lineRatio lines lines = 1 := ratio_self _
  have hi2 : instRatio lines lines = 1 := by
    unfold instRatio
    rw [if_neg (fun hc => h hc.1)]
    exact ratio_self _
  simp only [computeSimilarity]
  rw [hl, hi2]
  rw [show (1 : ℚ) * (6 / 10) + 1 * (4 / 10) = 1 by norm_num, round4_one]

/-- The similarity record is symmetric whenever the two files have the same
normalized lines and the same instruction tokens. -/
theorem computeSimilarity_comm_of_eq {A B : List PyStr}
    (hn : normLines A = normLines B)
    (hi : extract_instructions A = extract_instructions B) :
    computeSimilarity A B = computeSimilarity B A := by
  simp only [computeSimilarity, lineRatio_eq, instRatio]
  rw [hn, hi]

/-! ## Bounds: every matching block fits in its window, so the ratio lies
in `[0, 1]` -/

/-- The inner loop keeps the best block inside the window, given size
bounds on the previous row of `j2len`. -/
theorem innerLoop_fits (i alo blo bhi : Nat)
    (hai : alo ≤ i) (old : List (Nat × Nat))
    (hold : ∀ j, lookJ old j ≤ i - alo ∧ lookJ old j ≤ j + 1 - blo) :
    ∀ (js : List Nat) (acc : List (Nat × Nat)) (bi bj bs : Nat),
    (∀ j, lookJ acc j ≤ i + 1 - alo ∧ lookJ acc j ≤ j + 1 - blo) →
    alo ≤ bi → bi + bs ≤ i + 1 → blo ≤ bj → bj + bs ≤ bhi →
    ((∀ j, lookJ (innerLoop i blo bhi js old acc (bi, bj, bs)).1 j ≤
        i + 1 - alo ∧
      lookJ (innerLoop i blo bhi js old acc (bi, bj, bs)).1 j ≤
        j + 1 - blo) ∧
     alo ≤ (innerLoop i blo bhi js old acc (bi, bj, bs)).2.1 ∧
     (innerLoop i blo bhi js old acc (bi, bj, bs)).2.1 +
       (innerLoop i blo bhi js old acc (bi, bj, bs)).2.2.2 ≤ i + 1 ∧
     blo ≤ (innerLoop i blo bhi js old acc (bi, bj, bs)).2.2.1 ∧
     (innerLoop i blo bhi js old acc (bi, bj, bs)).2.2.1 +
       (innerLoop i blo bhi js old acc (bi, bj, bs)).2.2.2 ≤ bhi) := by
  intro js
  induction js with
  | nil =>
    intro acc bi bj bs hacc h1 h2 h3 h4
    exact ⟨hacc, h1, h2, h3, h4⟩
  | cons j js ih =>
    intro acc bi bj bs hacc h1 h2 h3 h4
    by_cases hskip : j < blo
    · rw [show innerLoop i blo bhi (j :: js) old acc (bi, bj, bs) =
          innerLoop i blo bhi js old acc (bi, bj, bs) by
        simp only [innerLoop]
        rw [if_pos hskip]]
      exact ih acc bi bj bs hacc h1 h2 h3 h4
    · by_cases hbrk : bhi ≤ j
      · rw [show innerLoop i blo bhi (j :: js) old acc (bi, bj, bs) =
            (acc, (bi, bj, bs)) by
          simp only [innerLoop]
          rw [if_neg hskip, if_pos hbrk]]
        exact ⟨hacc, h1, h2, h3, h4⟩
      · have hk1 : (if j = 0 then 0 else lookJ old (j - 1)) + 1 ≤
            i + 1 - alo := by
          by_cases hj0 : j = 0
          · rw [if_pos hj0]; omega
          · rw [if_neg hj0]
            have := (hold (j - 1)).1
            omega
        have hk2 : (if j = 0 then 0 else lookJ old (j - 1)) + 1 ≤
            j + 1 - blo := by
          by_cases hj0 : j = 0
          · rw [if_pos hj0]; omega
          · rw [if_neg hj0]
            have := (hold (j - 1)).2
            omega
        set k := (if j = 0 then 0 else lookJ old (j - 1)) + 1 with hkdef
        have hstep : innerLoop i blo bhi (j :: js) old acc (bi, bj, bs) =
            innerLoop i blo bhi js old ((j, k) :: acc)
              (if bs < k then (i + 1 - k, j + 1 - k, k)
               else (bi, bj, bs)) := by
          simp only [innerLoop]
          rw [if_neg hskip, if_neg hbrk]
        rw [hstep]
        have hacc' : ∀ j', lookJ ((j, k) :: acc) j' ≤ i + 1 - alo ∧
            lookJ ((j, k) :: acc) j' ≤ j' + 1 - blo := by
          intro j'
          rw [lookJ_cons]
          by_cases hej : j' = j
          · subst hej
            rw [if_pos rfl]
            exact ⟨hk1, hk2⟩
          · rw [if_neg hej]
            exact hacc j'
        by_cases hup : bs < k
        · rw [if_pos hup]
          exact ih ((j, k) :: acc) (i + 1 - k) (j + 1 - k) k hacc'
            (by omega) (by omega) (by omega) (by omega)
        · rw [if_neg hup]
          exact ih ((j, k) :: acc) bi bj bs hacc' h1 h2 h3 h4

/-- The row loop of `find_longest_match` keeps the best block inside the
windows. -/
theorem rowLoop_fits (a b : List PyStr) (alo blo bhi : Nat) :
    ∀ (cnt r ahi : Nat), alo ≤ r → r + cnt = ahi →
    ∀ (M : List (Nat × Nat)) (bi bj bs : Nat),
    (∀ j, lookJ M j ≤ r - alo ∧ lookJ M j ≤ j + 1 - blo) →
    alo ≤ bi → bi + bs ≤ r → blo ≤ bj → bj + bs ≤ bhi →
    (alo ≤ (rowLoop a b blo bhi (List.range' r cnt) M (bi, bj, bs)).1 ∧
     (rowLoop a b blo bhi (List.range' r cnt) M (bi, bj, bs)).1 +
       (rowLoop a b blo bhi (List.range' r cnt) M (bi, bj, bs)).2.2 ≤ ahi ∧
     blo ≤ (rowLoop a b blo bhi (List.range' r cnt) M (bi, bj, bs)).2.1 ∧
     (rowLoop a b blo bhi (List.range' r cnt) M (bi, bj, bs)).2.1 +
       (rowLoop a b blo bhi (List.range' r cnt) M (bi, bj, bs)).2.2 ≤ bhi)
    := by
  intro cnt
  induction cnt with
  | zero =>
    intro r ahi har hra M bi bj bs hM h1 h2 h3 h4
    simp only [List.range'_zero, rowLoop]
    exact ⟨h1, by omega, h3, h4⟩
  | succ cnt ih =>
    intro r ahi har hra M bi bj bs hM h1 h2 h3 h4
    rw [List.range'_succ]
    show alo ≤ (rowLoop a b blo bhi (List.range' (r + 1) cnt)
        (innerLoop r blo bhi (b2j b (a.getD r [])) M [] (bi, bj, bs)).1
        (innerLoop r blo bhi (b2j b (a.getD r [])) M [] (bi, bj, bs)).2).1
      ∧ _ ∧ _ ∧ _
    obtain ⟨hmap, g1, g2, g3, g4⟩ :=
      innerLoop_fits r alo blo bhi har M hM (b2j b (a.getD r []))
        [] bi bj bs (fun j => ⟨Nat.zero_le _, Nat.zero_le _⟩)
        h1 (by omega) h3 h4
    set st := innerLoop r blo bhi (b2j b (a.getD r [])) M [] (bi, bj, bs)
      with hst
    have hM' : ∀ j, lookJ st.1 j ≤ r + 1 - alo ∧
        lookJ st.1 j ≤ j + 1 - blo := hmap
    have := ih (r + 1) ahi (by omega) (by omega) st.1
      st.2.1 st.2.2.1 st.2.2.2 hM' g1 g2 g3 g4
    have heta : (st.2.1, st.2.2.1, st.2.2.2) = st.2 := rfl
    rw [heta] at this
    exact this

theorem extendBack_fits (a b : List PyStr) (alo blo ahi bhi : Nat) :
    ∀ (fuel bi bj bs : Nat),
    alo ≤ bi → bi + bs ≤ ahi → blo ≤ bj → bj + bs ≤ bhi →
    (alo ≤ (extendBack a b alo blo fuel (bi, bj, bs)).1 ∧
     (extendBack a b alo blo fuel (bi, bj, bs)).1 +
       (extendBack a b alo blo fuel (bi, bj, bs)).2.2 ≤ ahi ∧
     blo ≤ (extendBack a b alo blo fuel (bi, bj, bs)).2.1 ∧
     (extendBack a b alo blo fuel (bi, bj, bs)).2.1 +
       (extendBack a b alo blo fuel (bi, bj, bs)).2.2 ≤ bhi) := by
  intro fuel
  induction fuel with
  | zero =>
    intro bi bj bs h1 h2 h3 h4
    exact ⟨h1, h2, h3, h4⟩
  | succ fuel ih =>
    intro bi bj bs h1 h2 h3 h4
    simp only [extendBack]
    split
    · next hc =>
      exact ih (bi - 1) (bj - 1) (bs + 1) (by omega) (by omega)
        (by omega) (by omega)
    · exact ⟨h1, h2, h3, h4⟩

theorem extendFwd_fits (a b : List PyStr) (ahi bhi : Nat) (alo blo : Nat) :
    ∀ (fuel bi bj bs : Nat),
    alo ≤ bi → bi + bs ≤ ahi → blo ≤ bj → bj + bs ≤ bhi →
    (alo ≤ (extendFwd a b ahi bhi fuel (bi, bj, bs)).1 ∧
     (extendFwd a b ahi bhi fuel (bi, bj, bs)).1 +
       (extendFwd a b ahi bhi fuel (bi, bj, bs)).2.2 ≤ ahi ∧
     blo ≤ (extendFwd a b ahi bhi fuel (bi, bj, bs)).2.1 ∧
     (extendFwd a b ahi bhi fuel (bi, bj, bs)).2.1 +
       (extendFwd a b ahi bhi fuel (bi, bj, bs)).2.2 ≤ bhi) := by
  intro fuel
  induction fuel with
  | zero =>
    intro bi bj bs h1 h2 h3 h4
    exact ⟨h1, h2, h3, h4⟩
  | succ fuel ih =>
    intro bi bj bs h1 h2 h3 h4
    simp only [extendFwd]
    split
    · next hc =>
      exact ih bi bj (bs + 1) (by omega) (by omega) (by omega) (by omega)
    · exact ⟨h1, h2, h3, h4⟩

/-- The block found by `find_longest_match` fits in both windows. -/
theorem find_fits (a b : List PyStr) (alo ahi blo bhi : Nat)
    (h1 : alo ≤ ahi) (h2 : blo ≤ bhi) :
    alo ≤ (find_longest_match a b alo ahi blo bhi).1 ∧
    (find_longest_match a b alo ahi blo bhi).1 +
      (find_longest_match a b alo ahi blo bhi).2.2 ≤ ahi ∧
    blo ≤ (find_longest_match a b alo ahi blo bhi).2.1 ∧
    (find_longest_match a b alo ahi blo bhi).2.1 +
      (find_longest_match a b alo ahi blo bhi).2.2 ≤ bhi := by
  obtain ⟨g1, g2, g3, g4⟩ := rowLoop_fits a b alo blo bhi (ahi - alo) alo
    ahi (Nat.le_refl _) (by omega) [] alo blo 0
    (fun j => ⟨Nat.zero_le _, Nat.zero_le _⟩)
    (Nat.le_refl _) (by omega) (Nat.le_refl _) (by omega)
  set p1 := rowLoop a b blo bhi (List.range' alo (ahi - alo)) []
    (alo, blo, 0) with hp1
  obtain ⟨e1, e2, e3, e4⟩ := extendBack_fits a b alo blo ahi bhi p1.1
    p1.1 p1.2.1 p1.2.2 g1 g2 g3 g4
  have heta1 : (p1.1, p1.2.1, p1.2.2) = p1 := rfl
  rw [heta1] at e1 e2 e3 e4
  set p2 := extendBack a b alo blo p1.1 p1 with hp2
  obtain ⟨f1, f2, f3, f4⟩ := extendFwd_fits a b ahi bhi alo blo
    (ahi - (p2.1 + p2.2.2)) p2.1 p2.2.1 p2.2.2 e1 e2 e3 e4
  have heta2 : (p2.1, p2.2.1, p2.2.2) = p2 := rfl
  rw [heta2] at f1 f2 f3 f4
  exact ⟨f1, f2, f3, f4⟩

/-- The total matched size is at most each sequence length. -/
theorem matchTotal_le (a b : List PyStr) :
    ∀ (fuel alo ahi blo bhi : Nat), alo ≤ ahi → blo ≤ bhi →
    (matchTotal a b fuel alo ahi blo bhi ≤ ahi - alo ∧
     matchTotal a b fuel alo ahi blo bhi ≤ bhi - blo) := by
  intro fuel
  induction fuel with
  | zero =>
    intro alo ahi blo bhi h1 h2
    exact ⟨Nat.zero_le _, Nat.zero_le _⟩
  | succ fuel ih =>
    intro alo ahi blo bhi h1 h2
    obtain ⟨f1, f2, f3, f4⟩ := find_fits a b alo ahi blo bhi h1 h2
    simp only [matchTotal]
    set m := find_longest_match a b alo ahi blo bhi with hm
    by_cases hz : m.2.2 = 0
    · rw [if_pos hz]
      exact ⟨Nat.zero_le _, Nat.zero_le _⟩
    · rw [if_neg hz]
      obtain ⟨l1, l2⟩ := ih alo m.1 blo m.2.1 f1 f3
      obtain ⟨r1, r2⟩ := ih (m.1 + m.2.2) ahi (m.2.1 + m.2.2) bhi f2 f4
      constructor
      · omega
      · omega

theorem ratio_nonneg (a b : List PyStr) : 0 ≤ ratio a b := by
  simp only [ratio]
  split
  · norm_num
  · positivity

theorem ratio_le_one (a b : List PyStr) : ratio a b ≤ 1 := by
  simp only [ratio]
  by_cases h : a.length + b.length = 0
  · rw [if_pos h]
  · rw [if_neg h]
    obtain ⟨hA, hB⟩ := matchTotal_le a b (a.length + b.length + 1) 0
      a.length 0 b.length (Nat.zero_le _) (Nat.zero_le _)
    have hTpos : (0 : ℚ) < ((a.length + b.length : Nat) : ℚ) := by
      have : 0 < a.length + b.length := Nat.pos_of_ne_zero h
      exact_mod_cast this
    rw [div_le_one hTpos]
    have hle : 2 * matchTotal a b (a.length + b.length + 1) 0 a.length 0
        b.length ≤ a.length + b.length := by omega
    exact_mod_cast hle

theorem roundEven_bounds (y : ℚ) (hy0 : 0 ≤ y) (hy1 : y ≤ 10000) :
    0 ≤ roundEven y ∧ roundEven y ≤ 10000 := by
  simp only [roundEven]
  rw [ratFloor_eq_floor]
  have h1 : (Int.floor y : ℚ) ≤ y := Int.floor_le y
  have h2 : 0 ≤ Int.floor y := Int.floor_nonneg.mpr hy0
  have hle : (Int.floor y : ℚ) ≤ 10000 := le_trans h1 hy1
  have hfle : Int.floor y ≤ 10000 := by exact_mod_cast hle
  split_ifs with c1 c2 c3
  · exact ⟨h2, hfle⟩
  · have hlt : (Int.floor y : ℚ) < 10000 := by linarith
    have : Int.floor y < 10000 := by exact_mod_cast hlt
    omega
  · exact ⟨h2, hfle⟩
  · have heq : y - (Int.floor y : ℚ) = 1 / 2 := by
      push_neg at c1 c2
      linarith
    have hlt : (Int.floor y : ℚ) < 10000 := by linarith
    have : Int.floor y < 10000 := by exact_mod_cast hlt
    omega

theorem round4_bounds (x : ℚ) (hx0 : 0 ≤ x) (hx1 : x ≤ 1) :
    0 ≤ round4 x ∧ round4 x ≤ 1 := by
  unfold round4
  obtain ⟨h0, h1⟩ := roundEven_bounds (x * 10000) (by positivity)
    (by linarith)
  constructor
  · apply div_nonneg _ (by norm_num)
    exact_mod_cast h0
  · rw [div_le_one (by norm_num)]
    have : ((roundEven (x * 10000) : ℤ) : ℚ) ≤ ((10000 : ℤ) : ℚ) := by
      exact_mod_cast h1
    simpa using this

/-- All three fields of the computed record lie in `[0, 1]`. -/
theorem computeSimilarity_bounds (l1 l2 : List PyStr) :
    0 ≤ (computeSimilarity l1 l2).line_similarity ∧
    (computeSimilarity l1 l2).line_similarity ≤ 1 ∧
    0 ≤ (computeSimilarity l1 l2).instruction_similarity ∧
    (computeSimilarity l1 l2).instruction_similarity ≤ 1 ∧
    0 ≤ (computeSimilarity l1 l2).overall_similarity ∧
    (computeSimilarity l1 l2).overall_similarity ≤ 1 := by
  have hl0 : 0 ≤ lineRatio l1 l2 := ratio_nonneg _ _
  have hl1 : lineRatio l1 l2 ≤ 1 := ratio_le_one _ _
  have hi0 : 0 ≤ instRatio l1 l2 := by
    simp only [instRatio]
    split
    · norm_num
    · exact ratio_nonneg _ _
  have hi1 : instRatio l1 l2 ≤ 1 := by
    simp only [instRatio]
    split
    · norm_num
    · exact ratio_le_one _ _
  have ho0 : 0 ≤ lineRatio l1 l2 * (6 / 10) + instRatio l1 l2 * (4 / 10) :=
    by positivity
  have ho1 : lineRatio l1 l2 * (6 / 10) + instRatio l1 l2 * (4 / 10) ≤ 1 :=
    by linarith
  obtain ⟨a1, a2⟩ := round4_bounds _ hl0 hl1
  obtain ⟨b1, b2⟩ := round4_bounds _ hi0 hi1
  obtain ⟨c1, c2⟩ := round4_bounds _ ho0 ho1
  exact ⟨a1, a2, b1, b2, c1, c2⟩

/-! ## Concrete inputs and evaluations

`Rat` arithmetic is opaque to the kernel, so concrete similarity values are
computed by `decide` on the `Nat`/`List` layer and by the rounding helpers
on the `ℚ` layer. -/

theorem calc_ok (l1 l2 : List PyStr) :
    calculate_similarity (.ok l1) (.ok l2) =
      .ok (computeSimilarity l1 l2) := rfl

theorem round4_35 : round4 (3 / 5) = 3 / 5 := by
  rw [round4_of_lt_half (3 / 5) 6000 (by norm_num) (by norm_num)]
  norm_num

/-- A 12-line file: two matching pairs `p q` and `r s` around a stray `w`. -/
def fA : List PyStr :=
  ["p\n".data, "q\n".data, "f1\n".data, "f2\n".data, "f3\n".data,
   "w\n".data, "f4\n".data, "f5\n".data, "f6\n".data, "f7\n".data,
   "r\n".data, "s\n".data]

/-- A 16-line file matching `fA` on `r s`, `p q` and `w`. -/
def fB : List PyStr :=
  ["r\n".data, "s\n".data, "g1\n".data, "g2\n".data, "g3\n".data,
   "g4\n".data, "g5\n".data, "g6\n".data, "g7\n".data, "g8\n".data,
   "p\n".data, "q\n".data, "g9\n".data, "g10\n".data, "g11\n".data,
   "w\n".data]

/-- Normalized lines (and instruction tokens) of `fA`. -/
def nA : List PyStr :=
  ["p".data, "q".data, "f1".data, "f2".data, "f3".data, "w".data,
   "f4".data, "f5".data, "f6".data, "f7".data, "r".data, "s".data]

/-- Normalized lines (and instruction tokens) of `fB`. -/
def nB : List PyStr :=
  ["r".data, "s".data, "g1".data, "g2".data, "g3".data, "g4".data,
   "g5".data, "g6".data, "g7".data, "g8".data, "p".data, "q".data,
   "g9".data, "g10".data, "g11".data, "w".data]

theorem ratio_nAB : ratio nA nB = 3 / 14 := by
  simp only [ratio]
  rw [if_neg (by decide)]
  rw [show matchTotal nA nB (nA.length + nB.length + 1) 0 nA.length 0
      nB.length = 3 from by decide]
  rw [show nA.length + nB.length = 28 from by decide]
  norm_num

theorem ratio_nBA : ratio nB nA = 1 / 7 := by
  simp only [ratio]
  rw [if_neg (by decide)]
  rw [show matchTotal nB nA (nB.length + nA.length + 1) 0 nB.length 0
      nA.length = 2 from by decide]
  rw [show nB.length + nA.length = 28 from by decide]
  norm_num

theorem round4_314 : round4 (3 / 14) = 2143 / 10000 := by
  rw [round4_of_gt_half (3 / 14) 2142 (by norm_num) (by norm_num)]
  norm_num

theorem round4_17 : round4 (1 / 7) = 1429 / 10000 := by
  rw [round4_of_gt_half (1 / 7) 1428 (by norm_num) (by norm_num)]
  norm_num

theorem computeSimilarity_fAB : computeSimilarity fA fB =
    ⟨2143 / 10000, 2143 / 10000, 2143 / 10000⟩ := by
  have hl : lineRatio fA fB = 3 / 14 := by
    rw [lineRatio_eq, show normLines fA = nA from by decide,
      show normLines fB = nB from by decide, ratio_nAB]
  have hi2 : instRatio fA fB = 3 / 14 := by
    simp only [instRatio]
    rw [show extract_instructions fA = nA from by decide,
      show extract_instructions fB = nB from by decide,
      if_neg (by decide), ratio_nAB]
  simp only [computeSimilarity]
  rw [hl, hi2,
    show (3 / 14 : ℚ) * (6 / 10) + 3 / 14 * (4 / 10) = 3 / 14 by norm_num]
  simp only [round4_314]

theorem computeSimilarity_fBA : computeSimilarity fB fA =
    ⟨1429 / 10000, 1429 / 10000, 1429 / 10000⟩ := by
  have hl : lineRatio fB fA = 1 / 7 := by
    rw [lineRatio_eq, show normLines fB = nB from by decide,
      show normLines fA = nA from by decide, ratio_nBA]
  have hi2 : instRatio fB fA = 1 / 7 := by
    simp only [instRatio]
    rw [show extract_instructions fB = nB from by decide,
      show extract_instructions fA = nA from by decide,
      if_neg (by decide), ratio_nBA]
  simp only [computeSimilarity]
  rw [hl, hi2,
    show (1 / 7 : ℚ) * (6 / 10) + 1 / 7 * (4 / 10) = 1 / 7 by norm_num]
  simp only [round4_17]

/-- A file consisting of a single comment line. -/
def cFile : List PyStr := ["# only a comment\n".data]

theorem computeSimilarity_cFile :
    computeSimilarity cFile cFile = ⟨1, 0, 3 / 5⟩ := by
  have hl : lineRatio cFile cFile = 1 := by
    rw [lineRatio_eq, show normLines cFile = ([] : List PyStr) from by decide]
    rfl
  have hi2 : instRatio cFile cFile = 0 := by
    simp only [instRatio]
    rw [if_pos ⟨by decide, by decide⟩]
  simp only [computeSimilarity]
  rw [hl, hi2,
    show (1 : ℚ) * (6 / 10) + 0 * (4 / 10) = 3 / 5 by norm_num,
    round4_one, round4_zero, round4_35]

theorem computeSimilarity_empty :
    computeSimilarity [] [] = ⟨1, 0, 3 / 5⟩ := by
  have hl : lineRatio [] [] = 1 := rfl
  have hi2 : instRatio [] [] = 0 := by
    simp only [instRatio]
    rw [if_pos ⟨rfl, rfl⟩]
  simp only [computeSimilarity]
  rw [hl, hi2,
    show (1 : ℚ) * (6 / 10) + 0 * (4 / 10) = 3 / 5 by norm_num,
    round4_one, round4_zero, round4_35]

theorem computeSimilarity_directives :
    computeSimilarity [".text\n".data] [".data\n".data] = ⟨0, 0, 0⟩ := by
  have hl : lineRatio [".text\n".data] [".data\n".data] = 0 := by
    rw [lineRatio_eq,
      show normLines [".text\n".data] = [".text".data] from by decide,
      show normLines [".data\n".data] = [".data".data] from by decide]
    simp only [ratio]
    rw [if_neg (by decide)]
    rw [show matchTotal [".text".data] [".data".data]
        ([".text".data].length + [".data".data].length + 1) 0
        [".text".data].length 0 [".data".data].length = 0 from by decide]
    norm_num
  have hi2 : instRatio [".text\n".data] [".data\n".data] = 0 := by
    simp only [instRatio]
    rw [if_pos ⟨by decide, by decide⟩]
  simp only [computeSimilarity]
  rw [hl, hi2, show (0 : ℚ) * (6 / 10) + 0 * (4 / 10) = 0 by norm_num,
    round4_zero]

/-- Directive-only files whose line ratio `4/7` exposes the difference
between rounding before and after the weighting. -/
def dA : List PyStr := [".u\n".data, ".v\n".data, ".p\n".data]

def dB : List PyStr := [".u\n".data, ".v\n".data, ".q\n".data, ".r\n".data]

theorem round4_47 : round4 (4 / 7) = 2857 / 5000 := by
  rw [round4_of_lt_half (4 / 7) 5714 (by norm_num) (by norm_num)]
  norm_num

theorem round4_1235 : round4 (12 / 35) = 3429 / 10000 := by
  rw [round4_of_gt_half (12 / 35) 3428 (by norm_num) (by norm_num)]
  norm_num

theorem round4_from_rounded :
    round4 (2857 / 5000 * (6 / 10) + 0 * (4 / 10)) = 3428 / 10000 := by
  rw [show (2857 / 5000 : ℚ) * (6 / 10) + 0 * (4 / 10) = 8571 / 25000 by
    norm_num]
  rw [round4_of_lt_half (8571 / 25000) 3428 (by norm_num) (by norm_num)]
  norm_num

theorem lineRatio_dAB : lineRatio dA dB = 4 / 7 := by
  rw [lineRatio_eq,
    show normLines dA = [".u".data, ".v".data, ".p".data] from by decide,
    show normLines dB = [".u".data, ".v".data, ".q".data, ".r".data] from
      by decide]
  simp only [ratio]
  rw [if_neg (by decide)]
  rw [show matchTotal [".u".data, ".v".data, ".p".data]
      [".u".data, ".v".data, ".q".data, ".r".data]
      ([".u".data, ".v".data, ".p".data].length +
        [".u".data, ".v".data, ".q".data, ".r".data].length + 1) 0
      [".u".data, ".v".data, ".p".data].length 0
      [".u".data, ".v".data, ".q".data, ".r".data].length = 2 from by
    decide]
  rw [show [".u".data, ".v".data, ".p".data].length +
      [".u".data, ".v".data, ".q".data, ".r".data].length = 7 from by
    decide]
  norm_num

theorem instRatio_dAB : instRatio dA dB = 0 := by
  simp only [instRatio]
  rw [if_pos ⟨by decide, by decide⟩]

theorem computeSimilarity_dAB : computeSimilarity dA dB =
    ⟨2857 / 5000, 0, 3429 / 10000⟩ := by
  simp only [computeSimilarity]
  rw [lineRatio_dAB, instRatio_dAB,
    show (4 / 7 : ℚ) * (6 / 10) + 0 * (4 / 10) = 12 / 35 by norm_num,
    round4_47, round4_zero, round4_1235]

/-- `normalize_assembly_line` is idempotent. -/
theorem normalize_idem (s : PyStr) :
    normalize_assembly_line (normalize_assembly_line s) =
      normalize_assembly_line s := by
  calc normalize_assembly_line (normalize_assembly_line s)
      = pyStrip (cutAt ';' (cutAt '#' (normalize_assembly_line s))) :=
        normalize_eq _
    _ = pyStrip (normalize_assembly_line s) := by
        rw [cutAt_of_not_mem (hash_not_mem_normalize s),
          cutAt_of_not_mem (semi_not_mem_normalize s)]
    _ = normalize_assembly_line s := pyStrip_normalize s

/-- Files whose normalized lines all vanish extract no instructions. -/
theorem extract_nil_of_normLines {A : List PyStr} (h : normLines A = []) :
    extract_instructions A = [] := by
  induction A with
  | nil => rfl
  | cons l ls ih =>
    unfold normLines at h ih
    rw [List.map_cons, List.filter_cons] at h
    by_cases hn : normalize_assembly_line l = []
    · rw [hn] at h
      simp only [List.isEmpty_nil, Bool.not_true] at h
      rw [if_neg (by simp)] at h
      unfold extract_instructions
      rw [if_pos hn]
      exact ih h
    · exfalso
      have : (!(normalize_assembly_line l).isEmpty) = true := by
        simpa [List.isEmpty_iff] using hn
      rw [if_pos this] at h
      exact List.cons_ne_nil _ _ h

/-! ## Per-line noise transformations (comments, surrounding whitespace) -/

/-- `m` is `l` with a trailing `#`- or `;`-comment appended, or differs
from `l` only in leading/trailing whitespace. -/
def lineNoise (l m : PyStr) : Prop :=
  (∃ c, m = l ++ '#' :: c) ∨ (∃ c, m = l ++ ';' :: c) ∨
  (∃ core u1 u2 w1 w2,
    (∀ x ∈ u1, pyIsSpace x) ∧ (∀ x ∈ u2, pyIsSpace x) ∧
    (∀ x ∈ w1, pyIsSpace x) ∧ (∀ x ∈ w2, pyIsSpace x) ∧
    l = u1 ++ core ++ u2 ∧ m = w1 ++ core ++ w2)

theorem lineNoise_normalize {l m : PyStr} (h : lineNoise l m) :
    normalize_assembly_line m = normalize_assembly_line l := by
  rcases h with ⟨c, rfl⟩ | ⟨c, rfl⟩ |
    ⟨core, u1, u2, w1, w2, hu1, hu2, hw1, hw2, rfl, rfl⟩
  · exact normalize_append_hash l c
  · exact normalize_append_semi l c
  · rw [normalize_ws_pad hw1 hw2, normalize_ws_pad hu1 hu2]

/-- Per-line noise leaves the whole record unchanged. -/
theorem computeSimilarity_noise {A B C : List PyStr}
    (h : List.Forall₂ lineNoise A B) :
    computeSimilarity B C = computeSimilarity A C := by
  have h2 : List.Forall₂
      (fun l m => normalize_assembly_line m = normalize_assembly_line l)
      A B := h.imp (fun a b hx => lineNoise_normalize hx)
  have hn := normLines_congr h2
  have he := extract_congr h2
  simp only [computeSimilarity, lineRatio_eq, instRatio]
  rw [hn, he]

/-! ## The claims -/

/-- Claim C1, counterexample: a `PermissionError` while reading the first
file is not caught — `calculate_similarity` raises instead of returning the
zero record, contradicting the claim for "any I/O failure". -/
theorem C1_counterexample :
    calculate_similarity (Except.error ErrKind.permissionDenied)
        (Except.ok []) = Except.error ErrKind.permissionDenied ∧
      Except.error ErrKind.permissionDenied ≠ Except.ok zeroResult :=
  ⟨rfl, fun h => nomatch h⟩

/-- Claim C1 (amended): only a missing file (`FileNotFoundError`) is
mapped, without raising, to the all-zero record; readable pairs never
raise; any other read error (permission, other I/O failure) propagates out
of `calculate_similarity`. -/
theorem C1_theorem (lines1 lines2 : List PyStr) (r2 : ReadOutcome) :
    calculate_similarity (.ok lines1) (.ok lines2) =
        .ok (computeSimilarity lines1 lines2) ∧
    calculate_similarity (.error .fileNotFound) r2 = .ok zeroResult ∧
    calculate_similarity (.ok lines1) (.error .fileNotFound) =
        .ok zeroResult ∧
    calculate_similarity (.error .permissionDenied) r2 =
        .error .permissionDenied ∧
    calculate_similarity (.ok lines1) (.error .permissionDenied) =
        .error .permissionDenied ∧
    calculate_similarity (.error .otherReadError) r2 =
        .error .otherReadError ∧
    calculate_similarity (.ok lines1) (.error .otherReadError) =
        .error .otherReadError :=
  ⟨rfl, rfl, rfl, rfl, rfl, rfl, rfl⟩

/-- Claim C2, counterexample: a non-empty readable file consisting of one
comment line compared with itself yields `(1.0, 0.0, 0.6)`, not all `1.0`:
the instruction ratio is forced to `0.0` by the both-empty guard. -/
theorem C2_counterexample :
    calculate_similarity (.ok cFile) (.ok cFile) = .ok ⟨1, 0, 3 / 5⟩ ∧
      (3 / 5 : ℚ) ≠ 1 := by
  constructor
  · rw [calc_ok, computeSimilarity_cFile]
  · norm_num

/-- Claim C2 (amended): for every readable `A` with at least one extracted
instruction token, `calculate_similarity(A, A)` returns
`line_similarity = instruction_similarity = overall_similarity = 1.0`. -/
theorem C2_theorem (lines : List PyStr)
    (h : extract_instructions lines ≠ []) :
    calculate_similarity (.ok lines) (.ok lines) = .ok ⟨1, 1, 1⟩ := by
  rw [calc_ok, computeSimilarity_self lines h]

/-- Witness for C2 at the one-instruction file `ret`. -/
theorem C2_witness :
    calculate_similarity (.ok ["ret\n".data]) (.ok ["ret\n".data]) =
      .ok ⟨1, 1, 1⟩ :=
  C2_theorem ["ret\n".data] (by decide)

/-- Claim C3, counterexample: the matching-block ratio is order-dependent
(greedy tie-breaking), so swapping the two files changes all three fields:
`(0.2143, …)` against `(0.1429, …)` on a 12-line / 16-line pair. -/
theorem C3_counterexample :
    calculate_similarity (.ok fA) (.ok fB) ≠
      calculate_similarity (.ok fB) (.ok fA) := by
  rw [calc_ok, calc_ok, computeSimilarity_fAB, computeSimilarity_fBA]
  intro h
  have h2 := (Except.ok.injEq _ _).mp h
  have h3 := congrArg SimResult.line_similarity h2
  norm_num at h3

/-- Claim C3 (amended): `calculate_similarity` is symmetric whenever the
two files have equal normalized-line sequences and equal instruction-token
sequences (in particular for identical files); in general the greedy
tie-breaking of the matching-block algorithm makes it asymmetric. -/
theorem C3_theorem (A B : List PyStr) (hn : normLines A = normLines B)
    (hi : extract_instructions A = extract_instructions B) :
    calculate_similarity (.ok A) (.ok B) =
      calculate_similarity (.ok B) (.ok A) := by
  rw [calc_ok, calc_ok, computeSimilarity_comm_of_eq hn hi]

/-- Witness for C3: `ret` against `ret # c` (equal after normalization). -/
theorem C3_witness :
    calculate_similarity (.ok ["ret\n".data]) (.ok ["ret # c\n".data]) =
      calculate_similarity (.ok ["ret # c\n".data]) (.ok ["ret\n".data]) :=
  C3_theorem ["ret\n".data] ["ret # c\n".data] (by decide) (by decide)

/-- Claim C4, counterexample: two readable files consisting only of
directives (`.text` / `.data`) yield `line_similarity = 0.0`, not `1.0`:
directives survive normalization, so the normalized-line sequences are not
empty. -/
theorem C4_counterexample :
    calculate_similarity (.ok [".text\n".data]) (.ok [".data\n".data]) =
        .ok ⟨0, 0, 0⟩ ∧ (0 : ℚ) ≠ 1 := by
  constructor
  · rw [calc_ok, computeSimilarity_directives]
  · norm_num

/-- Claim C4 (amended): when both extracted instruction sequences are empty
the guard forces `instruction_similarity = 0.0`; when both normalized-line
sequences are empty (files of comments and blank lines only — labels and
directives survive normalization) the underlying algorithm's empty/empty
convention gives `line_similarity = 1.0` while the instruction field is
still `0.0`. -/
theorem C4_theorem (A B : List PyStr) :
    (extract_instructions A = [] → extract_instructions B = [] →
      (computeSimilarity A B).instruction_similarity = 0) ∧
    (normLines A = [] → normLines B = [] →
      (computeSimilarity A B).line_similarity = 1 ∧
      (computeSimilarity A B).instruction_similarity = 0) := by
  constructor
  · intro h1 h2
    show round4 (instRatio A B) = 0
    unfold instRatio
    rw [if_pos ⟨h1, h2⟩, round4_zero]
  · intro h1 h2
    constructor
    · show round4 (lineRatio A B) = 1
      rw [lineRatio_eq, h1, h2, ratio_self, round4_one]
    · show round4 (instRatio A B) = 0
      unfold instRatio
      rw [if_pos ⟨extract_nil_of_normLines h1,
        extract_nil_of_normLines h2⟩, round4_zero]

/-- Witness for C4 at a comment-only file against a blank-line file. -/
theorem C4_witness :
    (computeSimilarity ["# c\n".data] [" \n".data]).line_similarity = 1 ∧
    (computeSimilarity ["# c\n".data] [" \n".data]).instruction_similarity
      = 0 :=
  ( C4_theorem ["# c\n".data] [" \n".data]).2 (by decide) (by decide)

/-- Claim C5 (confirmed): the overall field is the 4-digit rounding of the
`0.6/0.4`-weighted sum of the unrounded ratios; rounding the already
rounded fields instead can give a different value, as the directive pair
`dA`/`dB` (line ratio `4/7`) shows. -/
theorem C5_theorem :
    (∀ l1 l2 : List PyStr,
      (computeSimilarity l1 l2).overall_similarity =
        round4 (lineRatio l1 l2 * (6 / 10) + instRatio l1 l2 * (4 / 10))) ∧
    (computeSimilarity dA dB).overall_similarity ≠
      round4 ((computeSimilarity dA dB).line_similarity * (6 / 10) +
        (computeSimilarity dA dB).instruction_similarity * (4 / 10)) := by
  constructor
  · intro l1 l2
    rfl
  · rw [computeSimilarity_dAB]
    show (3429 / 10000 : ℚ) ≠ round4 (2857 / 5000 * (6 / 10) + 0 * (4 / 10))
    rw [round4_from_rounded]
    norm_num

/-- Claim C6 (confirmed): `normalize_assembly_line` truncates at the first
`#`, then at the first `;`, then strips surrounding whitespace; it is total
and maps the empty string to the empty string. -/
theorem C6_theorem :
    (∀ s : PyStr,
      normalize_assembly_line s = pyStrip (cutAt ';' (cutAt '#' s))) ∧
    normalize_assembly_line [] = [] :=
  ⟨normalize_eq, rfl⟩

/-- Claim C7 (confirmed): `extract_instructions` returns, in order, the
first whitespace token of each line whose normalization is non-empty, not a
label (the embedded regex) and not a directive. -/
theorem C7_theorem (lines : List PyStr) :
    extract_instructions lines = lines.filterMap instSelector :=
  extract_eq_filterMap lines

/-- Claim C8 (confirmed for every returned record): whenever
`calculate_similarity` returns a record — for readable pairs and for the
missing-file fallback — all three fields lie in `[0, 1]`. -/
theorem C8_theorem (r1 r2 : ReadOutcome) (res : SimResult)
    (h : calculate_similarity r1 r2 = .ok res) :
    0 ≤ res.line_similarity ∧ res.line_similarity ≤ 1 ∧
    0 ≤ res.instruction_similarity ∧ res.instruction_similarity ≤ 1 ∧
    0 ≤ res.overall_similarity ∧ res.overall_similarity ≤ 1 := by
  rcases r1 with e1 | l1
  · rcases e1 with _ | _ | _
    · have hres : res = zeroResult := ((Except.ok.injEq _ _).mp h).symm
      subst hres
      exact ⟨le_refl 0, by norm_num [zeroResult], le_refl 0,
        by norm_num [zeroResult], le_refl 0, by norm_num [zeroResult]⟩
    · exact Except.noConfusion h
    · exact Except.noConfusion h
  · rcases r2 with e2 | l2
    · rcases e2 with _ | _ | _
      · have hres : res = zeroResult := ((Except.ok.injEq _ _).mp h).symm
        subst hres
        exact ⟨le_refl 0, by norm_num [zeroResult], le_refl 0,
          by norm_num [zeroResult], le_refl 0, by norm_num [zeroResult]⟩
      · exact Except.noConfusion h
      · exact Except.noConfusion h
    · have hres : res = computeSimilarity l1 l2 :=
        ((Except.ok.injEq _ _).mp h).symm
      subst hres
      exact computeSimilarity_bounds l1 l2

/-- Witness for C8 at the empty readable pair, whose record is
`(1.0, 0.0, 0.6)`. -/
theorem C8_witness :
    0 ≤ (⟨1, 0, 3 / 5⟩ : SimResult).line_similarity ∧
    (⟨1, 0, 3 / 5⟩ : SimResult).line_similarity ≤ 1 ∧
    0 ≤ (⟨1, 0, 3 / 5⟩ : SimResult).instruction_similarity ∧
    (⟨1, 0, 3 / 5⟩ : SimResult).instruction_similarity ≤ 1 ∧
    0 ≤ (⟨1, 0, 3 / 5⟩ : SimResult).overall_similarity ∧
    (⟨1, 0, 3 / 5⟩ : SimResult).overall_similarity ≤ 1 :=
  C8_theorem (.ok []) (.ok []) ⟨1, 0, 3 / 5⟩
    (by rw [calc_ok, computeSimilarity_empty])

/-- Claim C9 (confirmed): appending an arbitrary `#`- or `;`-comment to
every line of `A`, or changing only the leading/trailing whitespace of its
lines, leaves all three fields of the similarity against any fixed `B`
unchanged. -/
theorem C9_theorem (A B C : List PyStr) (h : List.Forall₂ lineNoise A B) :
    calculate_similarity (.ok B) (.ok C) =
      calculate_similarity (.ok A) (.ok C) := by
  rw [calc_ok, calc_ok, computeSimilarity_noise h]

/-- Witness for C9: `mov` with a `#`-comment appended, against `ret`. -/
theorem C9_witness :
    calculate_similarity (.ok ["mov# c".data]) (.ok ["ret".data]) =
      calculate_similarity (.ok ["mov".data]) (.ok ["ret".data]) :=
  C9_theorem ["mov".data] ["mov# c".data] ["ret".data]
    (List.Forall₂.cons (Or.inl ⟨" c".data, by decide⟩) List.Forall₂.nil)

/-- Claim C10 (confirmed): `normalize_assembly_line` is idempotent — its
output contains no `#` and no `;` and carries no surrounding whitespace. -/
theorem C10_theorem (s : PyStr) :
    normalize_assembly_line (normalize_assembly_line s) =
      normalize_assembly_line s ∧
    '#' ∉ normalize_assembly_line s ∧ ';' ∉ normalize_assembly_line s ∧
    pyStrip (normalize_assembly_line s) = normalize_assembly_line s :=
  ⟨normalize_idem s, hash_not_mem_normalize s, semi_not_mem_normalize s,
    pyStrip_normalize s⟩

end CalcSim
